import Mathlib

/-!
Verification of `converter.py` (image converter for an ESP32 photo frame).

The development shallowly embeds the parts of the program the claims are
about:

* the color-model normalization in `ImageProcessor.process_image`
  (converter.py lines 105-112): flattening RGBA / LA / P images onto the
  configured background color;
* the placement geometry of `ImageProcessor.process_image`
  (converter.py lines 114-145): Pillow's `Image.thumbnail` sizing, the
  centered crop rectangle, the fit paste offset, and the auto-mode
  aspect-ratio rule;
* the batch orchestrator `ImageProcessor.run` (converter.py lines
  153-215): enumeration, skip/overwrite policy, per-file failure
  isolation, progress events, counters and cooperative cancellation.

Machine integers are modelled as `Nat`/`Int`; Python's float ratios are
modelled as exact rationals; Python's floor division `//` is `Int.fdiv`
(or `Nat` division where the operands are provably nonnegative).  File
system state and the outcome of the decode/encode I/O performed by
`process_image` are passed explicitly as oracles to the orchestrator.
-/

/-! ### Pixel blending (Pillow `Image.paste` with an `L`-mode mask)

Pillow composites `paste(source, mask)` per channel with the fixed-point
macro `MULDIV255(a, b) = (tmp = a*b + 128; ((tmp >> 8) + tmp) >> 8)` and
`BLEND(mask, in1, in2) = MULDIV255(in1, 255 - mask) + MULDIV255(in2, mask)`
where `in1` is the underlying (background) channel and `in2` the pasted
source channel. -/

def muldiv255 (a b : ℕ) : ℕ :=
  ((a * b + 128) / 256 + (a * b + 128)) / 256

def blendChan (msk src bgc : ℕ) : ℕ :=
  muldiv255 bgc (255 - msk) + muldiv255 src msk

theorem muldiv255_255 (x : ℕ) (hx : x ≤ 255) : muldiv255 x 255 = x := by
  unfold muldiv255; omega

theorem muldiv255_zero (x : ℕ) : muldiv255 x 0 = 0 := by
  unfold muldiv255; omega

/-! ### Color-model normalization (converter.py lines 105-112)

```python
if img.mode in ('RGBA', 'LA', 'P'):
    rgb_img = Image.new('RGB', img.size, self.background_color)
    if img.mode == 'P':
        img = img.convert('RGBA')
    rgb_img.paste(img, mask=img.split()[-1] if img.mode == 'RGBA' else None)
    img = rgb_img
elif img.mode != 'RGB':
    img = img.convert('RGB')
```

For `RGBA` (and `P`, which is first expanded to `RGBA` through its
palette) the paste uses the alpha band as mask.  For `LA` the mask
argument is `None`: Pillow then converts the pasted image to `RGB`
(dropping alpha, replicating the gray value) and copies it over the
whole background canvas. -/

/-- An RGB pixel. -/
structure Px3 where
  r : ℕ
  g : ℕ
  b : ℕ
deriving DecidableEq, Repr

/-- An RGBA pixel. -/
structure Px4 where
  r : ℕ
  g : ℕ
  b : ℕ
  a : ℕ
deriving DecidableEq, Repr

/-- A gray+alpha (`LA`) pixel. -/
structure Px2 where
  l : ℕ
  a : ℕ
deriving DecidableEq, Repr

/-- A decoded image as Pillow hands it to the normalization step: its
color mode together with its pixel data (row-major).  `pal` carries the
palette lookup produced by `img.convert('RGBA')` on a `P` image. -/
inductive Decoded where
  | rgba (px : List Px4)
  | la (px : List Px2)
  | pal (palette : ℕ → Px4) (idx : List ℕ)
  | rgb (px : List Px3)
  | gray (px : List ℕ)

/-- One pixel of `rgb_img.paste(img, mask=alpha)`: Pillow's per-channel
`BLEND` of the source over the background, weighted by the alpha band. -/
def pasteRGBAPixel (bg : Px3) (p : Px4) : Px3 :=
  ⟨blendChan p.a p.r bg.r, blendChan p.a p.g bg.g, blendChan p.a p.b bg.b⟩

/-- The normalization branch of `process_image` (converter.py 105-112),
pixel level.  `rgba`/`pal` blend through the alpha mask; `la` is pasted
with `mask=None`, i.e. converted to RGB (alpha dropped) and copied over
the background; `gray` is `convert('RGB')`; `rgb` passes through. -/
def normalizeColor (bg : Px3) : Decoded → List Px3
  | .rgba px => px.map (pasteRGBAPixel bg)
  | .la px => px.map (fun p => ⟨p.l, p.l, p.l⟩)
  | .pal palette idx => (idx.map palette).map (pasteRGBAPixel bg)
  | .rgb px => px
  | .gray px => px.map (fun v => ⟨v, v, v⟩)

/-- Number of pixels of a decoded image (its native size). -/
def Decoded.numPixels : Decoded → ℕ
  | .rgba px => px.length
  | .la px => px.length
  | .pal _ idx => idx.length
  | .rgb px => px.length
  | .gray px => px.length

/-! ### Pillow `Image.thumbnail` sizing

`img.thumbnail((bw, bh))` (Pillow ≥ 9.1, as required by
`Image.Resampling.LANCZOS`) is a no-op when the box already contains the
image; otherwise it preserves the aspect ratio `w/h`:

```python
def round_aspect(number, key):
    return max(min(math.floor(number), math.ceil(number), key=key), 1)
if x / y >= aspect:
    x = round_aspect(y * aspect, key=lambda n: abs(aspect - n / y))
else:
    y = round_aspect(x / aspect, key=lambda n: 0 if n == 0 else abs(aspect - x / n))
```

`min` returns its first argument on ties, so ties go to `floor`. -/

/-- `round_aspect(num/den, key=|num/den - n|)` (the height-constrained
branch): nearest integer to `num/den`, ties toward `floor`.  The caller
applies the outer `max _ 1`. -/
def roundHalfDown (num den : ℕ) : ℕ :=
  if 2 * (num % den) ≤ den then num / den else num / den + 1

/-- `round_aspect(bx / aspect, key=|aspect - bx/n|)` with
`aspect = w / h` (the width-constrained branch).  The candidates are
`f = ⌊bx*h/w⌋` and `f + 1`; `f` wins iff
`bx/f - w/h ≤ w/h - bx/(f+1)`, i.e. `bx*h*(2f+1) ≤ 2*w*f*(f+1)`;
`n = 0` has key `0` and always wins.  The caller applies `max _ 1`. -/
def roundRecip (bx w h : ℕ) : ℕ :=
  let f := bx * h / w
  if f = 0 then 0
  else if bx * h % w = 0 then f
  else if bx * h * (2 * f + 1) ≤ 2 * w * f * (f + 1) then f else f + 1

/-- The size `img.thumbnail((bw, bh), LANCZOS)` leaves the image at. -/
def thumbnailSize (w h bw bh : ℕ) : ℕ × ℕ :=
  if w ≤ bw ∧ h ≤ bh then (w, h)
  else if bh * w ≤ bw * h then (max (roundHalfDown (bh * w) h) 1, bh)
  else (bw, max (roundRecip bw w h) 1)

/-! ### IEEE-754 binary64 arithmetic

`process_image` evaluates its auto-mode threshold (converter.py line
122) and `run` its progress percentage (line 208) in Python floats,
i.e. IEEE-754 binary64 with round-to-nearest, ties-to-even.  Every
value those two expressions produce is a dyadic rational `m * 2^e`,
which we represent exactly as an integer pair and compute with plain
`Nat`/`Int` arithmetic; `Dy.toQ` interprets a pair as the rational it
denotes.  Rounding is modelled for the normal range (the reachable
values — ratios of positive image dimensions, their differences and
quotients, and job-progress fractions — never overflow or reach
subnormals). -/

/-- `⌊log₂ n⌋` by fuel-bounded structural recursion; the caller passes
`fuel = n`, which always suffices. -/
def log2fuel : ℕ → ℕ → ℕ
  | 0, _ => 0
  | fuel + 1, n => if n ≤ 1 then 0 else log2fuel fuel (n / 2) + 1

/-- `⌊log₂ n⌋` for `n ≥ 1`. -/
def natLog2 (n : ℕ) : ℕ := log2fuel n n

/-- First guess for `⌊log₂ (a/b)⌋`: the difference of the integer
logs, off by at most one. -/
def log2off (a b : ℕ) : ℤ := (natLog2 a : ℤ) - (natLog2 b : ℤ)

/-- `⌊log₂ (a/b)⌋` for positive `a, b`: the guess `log2off`, fixed up
by one comparison. -/
def floorLog2 (a b : ℕ) : ℤ :=
  if 0 ≤ log2off a b then
    (if b * 2 ^ (log2off a b).toNat ≤ a then log2off a b else log2off a b - 1)
  else
    (if b ≤ a * 2 ^ (-log2off a b).toNat then log2off a b else log2off a b - 1)

/-- Round `N / D` to the nearest integer, ties to even. -/
def rhe (N D : ℕ) : ℕ :=
  if 2 * (N % D) < D then N / D
  else if D < 2 * (N % D) then N / D + 1
  else if N / D % 2 = 0 then N / D else N / D + 1

/-- An exact dyadic rational `m * 2^e`; the rounding functions below
return values with `|m| ∈ [2^52, 2^53]` (a binary64 significand). -/
structure Dy where
  m : ℤ
  e : ℤ
deriving DecidableEq, Repr

/-- The rational value of a dyadic pair (specification only). -/
def Dy.toQ (x : Dy) : ℚ := (x.m : ℚ) * (2 : ℚ) ^ x.e

/-- The binary64 exponent of `a / b`: its significand is scaled by
`2 ^ (-roundShift a b)` into `[2^52, 2^53)`. -/
def roundShift (a b : ℕ) : ℤ := floorLog2 a b - 52

/-- Numerator of `(a / b) * 2 ^ (-roundShift a b)`. -/
def roundN (a b : ℕ) : ℕ :=
  if 0 ≤ roundShift a b then a else a * 2 ^ (-roundShift a b).toNat

/-- Denominator of `(a / b) * 2 ^ (-roundShift a b)`. -/
def roundD (a b : ℕ) : ℕ :=
  if 0 ≤ roundShift a b then b * 2 ^ (roundShift a b).toNat else b

/-- Round the positive rational `a / b` to binary64: scale into
`[2^52, 2^53)` and round the scaled value half-to-even. -/
def roundPosDy (a b : ℕ) : Dy :=
  ⟨rhe (roundN a b) (roundD a b), roundShift a b⟩

/-- Round the rational `num / den` (`den > 0`) to binary64. -/
def roundIntRat (num : ℤ) (den : ℕ) : Dy :=
  if 0 < num then roundPosDy num.toNat den
  else if num < 0 then
    ⟨-(roundPosDy (-num).toNat den).m, (roundPosDy (-num).toNat den).e⟩
  else ⟨0, 0⟩

/-- An exact dyadic as a fraction `num / den`. -/
def dyToPair (x : Dy) : ℤ × ℕ :=
  if 0 ≤ x.e then (x.m * 2 ^ x.e.toNat, 1) else (x.m, 2 ^ (-x.e).toNat)

/-- Round an exact dyadic to binary64 (the rounding step each float
operation performs on its exact result). -/
def roundDy (x : Dy) : Dy := roundIntRat (dyToPair x).1 (dyToPair x).2

/-- Exact difference of two dyadics (rounded afterwards by `roundDy`). -/
def dySub (x y : Dy) : Dy :=
  ⟨x.m * 2 ^ (x.e - min x.e y.e).toNat - y.m * 2 ^ (y.e - min x.e y.e).toNat,
    min x.e y.e⟩

/-- `abs` of a dyadic (exact; floats negate by a sign bit). -/
def dyAbs (x : Dy) : Dy := ⟨(x.m.natAbs : ℤ), x.e⟩

/-- The exact quotient `x / y` (`y > 0`) as a fraction, to be rounded. -/
def dyDivPair (x y : Dy) : ℤ × ℕ :=
  (x.m * 2 ^ (x.e - y.e).toNat, y.m.toNat * 2 ^ (y.e - x.e).toNat)

/-- Float comparison `x < y` (exact comparison of the values). -/
def dyLtB (x y : Dy) : Bool :=
  x.m * 2 ^ (x.e - min x.e y.e).toNat < y.m * 2 ^ (y.e - min x.e y.e).toNat

/-- Python `int(·)` of a nonnegative dyadic (truncation = floor). -/
def dyFloorNat (x : Dy) : ℕ :=
  if 0 ≤ x.e then x.m.toNat * 2 ^ x.e.toNat else x.m.toNat / 2 ^ (-x.e).toNat

/-- Line 122 of converter.py evaluated in binary64:
`abs(image_ratio - target_ratio) / target_ratio < 0.2` where
`target_ratio = tw / th` and `image_ratio = w / h` are the correctly
rounded float quotients, the subtraction and the division each round
once, and `0.2` is the double nearest `1/5`. -/
def ratioCondFloat (w h tw th : ℕ) : Bool :=
  let t := roundIntRat (tw : ℤ) th
  let d := roundDy (dySub (roundIntRat (w : ℤ) h) t)
  dyLtB (roundIntRat (dyDivPair (dyAbs d) t).1 (dyDivPair (dyAbs d) t).2)
    (roundIntRat 1 5)

/-- Line 208 of converter.py evaluated in binary64:
`int((i + 1) / total * 100)` — one rounded division, one rounded
multiplication, then truncation (= floor, the value is nonnegative). -/
def progressValue (i total : ℕ) : ℕ :=
  dyFloorNat (roundDy ⟨(roundIntRat ((i : ℤ) + 1) total).m * 100,
    (roundIntRat ((i : ℤ) + 1) total).e⟩)

/-! ### Placement geometry of `process_image` (converter.py 114-145) -/

/-- Placement mode (`self.crop_mode`): `"fit"`, `"crop"` or `"auto"`. -/
inductive CropMode where
  | fit
  | crop
  | auto
deriving DecidableEq, Repr

/-- The claim\'s reading of the auto-mode test, in exact rational
arithmetic: `|w/h - tw/th| / (tw/th) < 0.2`.  Kept only to compare
against the float computation the program performs (`ratioCondFloat`);
the two differ at rounding boundaries. -/
abbrev ratioCondExact (w h tw th : ℕ) : Prop :=
  |(w : ℚ) / (h : ℚ) - (tw : ℚ) / (th : ℚ)| / ((tw : ℚ) / (th : ℚ)) < 1 / 5

/-- `actual_crop_mode` (converter.py 115-125): `auto` resolves to `crop`
when the float-evaluated relative aspect-ratio difference compares
below `0.2`, else to `fit`; `fit` and `crop` pass through. -/
def actualCropMode (m : CropMode) (w h tw th : ℕ) : CropMode :=
  match m with
  | .auto => if ratioCondFloat w h tw th then .crop else .fit
  | m => m

/-- Everything the crop branch (converter.py 127-137) computes: the
`thumbnail((2*tw, 2*th))` size, the centered crop rectangle (Python
`//` is `Int.fdiv`), the cropped size, whether the final
`resize(target)` runs, and the resulting size. -/
structure CropPlan where
  bounded : ℕ × ℕ
  rect : ℤ × ℤ × ℤ × ℤ
  cropped : ℕ × ℕ
  needsResize : Bool
  result : ℕ × ℕ
deriving DecidableEq, Repr

/-- Everything the fit branch (converter.py 138-145) computes: the
`thumbnail(target)` size, the paste offset on the fresh background
canvas, and the canvas size. -/
structure FitPlan where
  scaled : ℕ × ℕ
  offset : ℤ × ℤ
  canvas : ℕ × ℕ
deriving DecidableEq, Repr

/-- The crop branch:

```python
img.thumbnail((tw * 2, th * 2), LANCZOS)
left = max(0, (img.width - tw) // 2)
top = max(0, (img.height - th) // 2)
right = min(img.width, left + tw)
bottom = min(img.height, top + th)
img = img.crop((left, top, right, bottom))
if img.size != self.target_size:
    img = img.resize(self.target_size, LANCZOS)
``` -/
def mkCropPlan (w h tw th : ℕ) : CropPlan :=
  let s := thumbnailSize w h (tw * 2) (th * 2)
  let lft : ℤ := max 0 (((s.1 : ℤ) - tw).fdiv 2)
  let top : ℤ := max 0 (((s.2 : ℤ) - th).fdiv 2)
  let rgt : ℤ := min (s.1 : ℤ) (lft + tw)
  let bot : ℤ := min (s.2 : ℤ) (top + th)
  let c : ℕ × ℕ := ((rgt - lft).toNat, (bot - top).toNat)
  { bounded := s
    rect := (lft, top, rgt, bot)
    cropped := c
    needsResize := decide (c ≠ (tw, th))
    result := if c = (tw, th) then c else (tw, th) }

/-- The fit branch:

```python
img.thumbnail(self.target_size, LANCZOS)
new_img = Image.new('RGB', self.target_size, self.background_color)
offset = ((tw - img.size[0]) // 2, (th - img.size[1]) // 2)
new_img.paste(img, offset)
``` -/
def mkFitPlan (w h tw th : ℕ) : FitPlan :=
  let s := thumbnailSize w h tw th
  { scaled := s
    offset := (((tw : ℤ) - s.1).fdiv 2, ((th : ℤ) - s.2).fdiv 2)
    canvas := (tw, th) }

/-- The placement computed by `process_image` for a `w × h` source. -/
inductive Plan where
  | fit (p : FitPlan)
  | crop (p : CropPlan)
deriving DecidableEq, Repr

/-- `process_image`'s placement: crop branch if the resolved mode is
`"crop"`, else (`else:  # "fit" mode`) the fit branch. -/
def compositePlan (m : CropMode) (w h tw th : ℕ) : Plan :=
  match actualCropMode m w h tw th with
  | .crop => .crop (mkCropPlan w h tw th)
  | _ => .fit (mkFitPlan w h tw th)

/-- Size of the buffer the plan hands to `new_img.save`. -/
def Plan.resultSize : Plan → ℕ × ℕ
  | .fit p => p.canvas
  | .crop p => p.result

/-- Dimensions of the buffer `process_image` encodes for a `w × h`
source under mode `m` and target `(tw, th)`. -/
def processImageDims (m : CropMode) (w h tw th : ℕ) : ℕ × ℕ :=
  (compositePlan m w h tw th).resultSize

/-! ### File names and format filtering (converter.py 34-46, 165-168)

`os.path.splitext` splits a basename at its last dot, unless every
character before that dot is itself a dot (leading-dot files keep their
name whole). -/

/-- Python `str.lower()` on a filename extension (ASCII, as all
supported extensions are; `Char.toLower` only affects ASCII letters,
matching `ext.lower()` on them). -/
def strToLower (s : String) : String := ⟨s.data.map Char.toLower⟩

/-- Index of the last `'.'` in `cs`, if any. -/
def lastDotIdx (cs : List Char) : Option ℕ :=
  (cs.reverse.findIdx? (· = '.')).map (fun k => cs.length - 1 - k)

/-- `os.path.splitext` on a basename. -/
def splitext (s : String) : String × String :=
  match lastDotIdx s.data with
  | none => (s, "")
  | some i =>
    if (s.data.take i).any (fun c => c ≠ '.') then
      (⟨s.data.take i⟩, ⟨s.data.drop i⟩)
    else (s, "")

/-- `get_supported_formats()` (converter.py 34-46): base raster formats,
plus HEIF extensions when `pillow_heif` imported, plus RAW extensions
when `rawpy` imported. -/
def get_supported_formats (hasHeif hasRaw : Bool) : List String :=
  [".jpg", ".jpeg", ".png", ".bmp", ".tiff", ".tif", ".webp", ".gif"]
    ++ (if hasHeif then [".heif", ".heic", ".hif"] else [])
    ++ (if hasRaw then [".cr2", ".cr3", ".nef", ".arw", ".dng", ".raf", ".orf", ".rw2"] else [])

/-! ### The batch orchestrator `ImageProcessor.run` (converter.py 153-215) -/

/-- The configuration the GUI collaborator sets on the processor before
a run (the fields `run` reads, besides the target geometry). -/
structure Config where
  inputDir : String
  overwrite : Bool
  hasHeif : Bool
  hasRaw : Bool

/-- Payloads of the `log_message` signal, one constructor per format
string used by `run`. -/
inductive LogMsg where
  | skip (f : String)
  | ok (f : String)
  | failed (f : String)
  | err (f : String) (e : String)
deriving DecidableEq, Repr

/-- The exact Python strings behind each `log_message.emit`. -/
def LogMsg.render : LogMsg → String
  | .skip f => "Skipped (exists): " ++ f
  | .ok f => "Processed: " ++ f
  | .failed f => "Failed: " ++ f
  | .err f e => "Error: " ++ f ++ " - " ++ e

/-- The five pyqt signals `ImageProcessor` emits. -/
inductive Ev where
  | progress (v : ℕ)
  | log (m : LogMsg)
  | processingFile (f : String)
  | finished (processed skipped failed : ℕ)
  | errorOccurred (msg : String)
deriving DecidableEq, Repr

/-- The progress payload of an event, if it is a progress event. -/
def Ev.progVal : Ev → Option ℕ
  | .progress v => some v
  | _ => none

/-- Orchestrator state: the three counters, the emitted event stream in
order, and the output-directory contents (name ↦ encoded bytes,
abstracted as a number). -/
structure St where
  processed : ℕ
  skipped : ℕ
  failed : ℕ
  events : List Ev
  fs : String → Option ℕ

/-- Append one emitted signal. -/
def emit (st : St) (e : Ev) : St :=
  { st with events := st.events ++ [e] }

/-- Everything about a run that `run` observes from the outside world:
whether the input directory exists, the `os.listdir` result, the initial
output-directory contents, the outcome of `self.process_image` on each
file (its returned boolean plus the bytes it writes, or the exception it
raises), and the successive values read from `self.running` (read once
per loop iteration and once before `finished_success`). -/
structure RunInput where
  dirExists : Bool
  files : List String
  fs0 : String → Option ℕ
  procR : String → Except String (Bool × ℕ)
  obs : ℕ → Bool

/-- `process_image`'s observable outcome as `run` sees it, given only
the decode/encode outcome `dec`: every non-raising path of
`process_image` ends in `return True` (converter.py line 148). -/
def processImageRet (dec : String → Except String ℕ) (f : String) :
    Except String (Bool × ℕ) :=
  (dec f).map (fun n => (true, n))

/-- Output path for an input file (converter.py 186-188):
`f"{name_without_ext}.jpg"` (the output-directory join is left
implicit: all paths in `St.fs` live in the output directory). -/
def outputName (f : String) : String :=
  (splitext f).1 ++ ".jpg"

/-- One loop body of `run` (converter.py 183-209) for job `i` of
`total`: emit `processing_file`, skip if the output exists and
overwrite is off, otherwise run `process_image` and record its result;
finally emit the progress percentage `int((i+1)/total*100)`,
evaluated in binary64 (`progressValue`). -/
def handleJob (ow : Bool) (procR : String → Except String (Bool × ℕ))
    (total i : ℕ) (f : String) (st : St) : St :=
  let st1 := emit st (.processingFile f)
  let out := outputName f
  let st2 :=
    if (st1.fs out).isSome ∧ ow = false then
      { emit st1 (.log (.skip f)) with skipped := st1.skipped + 1 }
    else
      match procR f with
      | .ok (true, bytes) =>
        { emit st1 (.log (.ok f)) with
            processed := st1.processed + 1
            fs := fun n => if n = out then some bytes else st1.fs n }
      | .ok (false, _) =>
        { emit st1 (.log (.failed f)) with failed := st1.failed + 1 }
      | .error e =>
        { emit st1 (.log (.err f e)) with failed := st1.failed + 1 }
  emit st2 (.progress (progressValue i total))

/-- The `for i, filename in enumerate(image_files)` loop with its
`if not self.running: break` check (converter.py 179-209).  `i` doubles
as loop index and index of the next `self.running` read; the second
component of the result is the index of the read `run` performs after
the loop (line 211). -/
def jobLoop (ow : Bool) (procR : String → Except String (Bool × ℕ))
    (obs : ℕ → Bool) (total : ℕ) : List String → ℕ → St → St × ℕ
  | [], i, st => (st, i)
  | f :: rest, i, st =>
    if obs i then jobLoop ow procR obs total rest (i + 1) (handleJob ow procR total i f st)
    else (st, i + 1)

/-- The cancellation-free job fold: what the loop does to the state when
every `self.running` read returns `True`. -/
def foldJobs (ow : Bool) (procR : String → Except String (Bool × ℕ))
    (total : ℕ) : List String → ℕ → St → St
  | [], _, st => st
  | f :: rest, i, st => foldJobs ow procR total rest (i + 1) (handleJob ow procR total i f st)

/-- Counters start at zero, no events emitted, output dir as found. -/
def initSt (inp : RunInput) : St :=
  ⟨0, 0, 0, [], inp.fs0⟩

/-- The extension filter of converter.py 165-168:
`ext.lower() in supported_formats`. -/
def isSupported (cfg : Config) (f : String) : Bool :=
  (get_supported_formats cfg.hasHeif cfg.hasRaw).contains (strToLower (splitext f).2)

/-- `image_files` (converter.py 163-168). -/
def imageFiles (cfg : Config) (inp : RunInput) : List String :=
  inp.files.filter (isSupported cfg)

/-- `ImageProcessor.run` (converter.py 153-215): fatal error if the
input directory is missing or no supported image is found; otherwise
iterate the jobs and, if `self.running` still holds afterwards, emit
`finished_success(processed, skipped, failed)`. -/
def ImageProcessor.run (cfg : Config) (inp : RunInput) : St :=
  if inp.dirExists = false then
    emit (initSt inp) (.errorOccurred ("Input directory does not exist: " ++ cfg.inputDir))
  else
    let ifs := imageFiles cfg inp
    if ifs = [] then
      emit (initSt inp) (.errorOccurred ("No supported images found in: " ++ cfg.inputDir))
    else
      let res := jobLoop cfg.overwrite inp.procR inp.obs ifs.length ifs 0 (initSt inp)
      if inp.obs res.2 then
        emit res.1 (.finished res.1.processed res.1.skipped res.1.failed)
      else res.1

/-! ### Geometry lemmas -/

theorem roundHalfDown_le (A d k : ℕ) (hd : 0 < d) (h : A ≤ k * d) :
    roundHalfDown A d ≤ k := by
  unfold roundHalfDown
  split
  · exact le_trans (Nat.div_le_div_right h) (le_of_eq (Nat.mul_div_cancel k hd))
  · rename_i hm
    have h1 : d * (A / d) < d * k := by
      have h2 := Nat.div_add_mod A d
      have h3 : k * d = d * k := Nat.mul_comm k d
      omega
    have := Nat.lt_of_mul_lt_mul_left h1
    omega

theorem roundRecip_le (bw w h k : ℕ) (hw : 0 < w) (hbound : bw * h ≤ k * w)
    (hstrict : bw * h % w ≠ 0 → bw * h < k * w) : roundRecip bw w h ≤ k := by
  have hfle : bw * h / w ≤ k :=
    le_trans (Nat.div_le_div_right hbound) (le_of_eq (Nat.mul_div_cancel k hw))
  simp only [roundRecip]
  split
  · exact Nat.zero_le k
  split
  · exact hfle
  · rename_i hf0 hr0
    have hflt : bw * h / w < k := (Nat.div_lt_iff_lt_mul hw).mpr (hstrict hr0)
    split <;> omega

/-- After `thumbnail((bw, bh))` the image fits both its original size
and the box. -/
theorem thumbnailSize_le (w h bw bh : ℕ) (hw : 0 < w) (hh : 0 < h)
    (hbw : 0 < bw) (hbh : 0 < bh) :
    (thumbnailSize w h bw bh).1 ≤ w ∧ (thumbnailSize w h bw bh).2 ≤ h ∧
    (thumbnailSize w h bw bh).1 ≤ bw ∧ (thumbnailSize w h bw bh).2 ≤ bh := by
  unfold thumbnailSize
  split
  · rename_i hin
    exact ⟨le_refl w, le_refl h, hin.1, hin.2⟩
  split
  · rename_i hout hle
    have hbhh : bh ≤ h := by
      by_contra hc
      push_neg at hc
      have h1 : h * w < bh * w := (mul_lt_mul_right hw).mpr hc
      have h2 : h * w < bw * h := lt_of_lt_of_le h1 hle
      have h3 : w * h < bw * h := by rwa [Nat.mul_comm h w] at h2
      have h4 : w < bw := (mul_lt_mul_right hh).mp h3
      exact hout ⟨le_of_lt h4, le_of_lt hc⟩
    have hAw : bh * w ≤ w * h := by
      calc bh * w ≤ h * w := Nat.mul_le_mul_right w hbhh
      _ = w * h := Nat.mul_comm h w
    exact ⟨max_le (roundHalfDown_le (bh * w) h w hh hAw) hw, hbhh,
      max_le (roundHalfDown_le (bh * w) h bw hh hle) hbw, le_refl bh⟩
  · rename_i hout hgt
    push_neg at hgt
    have hbww : bw ≤ w := by
      by_contra hc
      push_neg at hc
      have h1 : w * h < bw * h := (mul_lt_mul_right hh).mpr hc
      have h2 : w * h < bh * w := lt_of_lt_of_le h1 (le_of_lt hgt)
      have h3 : h * w < bh * w := by rwa [Nat.mul_comm w h] at h2
      have h4 : h < bh := (mul_lt_mul_right hw).mp h3
      exact hout ⟨le_of_lt hc, le_of_lt h4⟩
    have hAh : bw * h ≤ h * w := by
      calc bw * h ≤ w * h := Nat.mul_le_mul_right h hbww
      _ = h * w := Nat.mul_comm w h
    have hrh : roundRecip bw w h ≤ h := by
      refine roundRecip_le bw w h h hw hAh ?_
      intro hr0
      rcases Nat.lt_or_ge (bw * h) (h * w) with hlt | hge
      · exact hlt
      · exfalso
        have heq : bw * h = h * w := le_antisymm hAh hge
        have : bw * h % w = 0 := by
          rw [heq, Nat.mul_comm h w]
          exact Nat.mul_mod_right w h
        exact hr0 this
    have hrbh : roundRecip bw w h ≤ bh := by
      refine roundRecip_le bw w h bh hw (le_of_lt hgt) (fun _ => hgt)
    exact ⟨hbww, max_le hrh hh, le_refl bw, max_le hrbh hbh⟩

/-- The centered crop keeps `min` of image and target in each axis. -/
theorem mkCropPlan_cropped (w h tw th : ℕ) :
    (mkCropPlan w h tw th).cropped =
      (min (thumbnailSize w h (tw * 2) (th * 2)).1 tw,
       min (thumbnailSize w h (tw * 2) (th * 2)).2 th) := by
  rcases hs : thumbnailSize w h (tw * 2) (th * 2) with ⟨s1, s2⟩
  simp only [mkCropPlan, hs]
  rw [Prod.mk.injEq]
  constructor
  · rw [Int.fdiv_eq_ediv _ (by norm_num)]
    omega
  · rw [Int.fdiv_eq_ediv _ (by norm_num)]
    omega

/-! ### Binary64 rounding lemmas

Correctness of the rounding model: `floorLog2` computes the floor log,
`roundPosDy` lands in the right binade, and all rounding steps are
monotone in the exact value and determined by it (the `congr` lemmas);
`progressValue` is monotone in the index, is `100` at the last index,
and stays below `100` before it whenever `total ≤ 2^53`. -/

theorem rhe_le (N D : ℕ) : N / D ≤ rhe N D := by
  unfold rhe; split_ifs <;> omega

theorem rhe_le_succ (N D : ℕ) : rhe N D ≤ N / D + 1 := by
  unfold rhe; split_ifs <;> omega

theorem rhe_eq_add_one {N D : ℕ} (h : rhe N D = N / D + 1) :
    D < 2 * (N % D) ∨ (2 * (N % D) = D ∧ N / D % 2 = 1) := by
  unfold rhe at h; split_ifs at h <;> omega

theorem rhe_eq_self {N D : ℕ} (h : rhe N D = N / D) :
    2 * (N % D) < D ∨ (2 * (N % D) = D ∧ N / D % 2 = 0) := by
  unfold rhe at h; split_ifs at h <;> omega

theorem rhe_mono {N1 D1 N2 D2 : ℕ} (hD1 : 0 < D1) (hD2 : 0 < D2)
    (h : N1 * D2 ≤ N2 * D1) : rhe N1 D1 ≤ rhe N2 D2 := by
  have e1 := Nat.div_add_mod N1 D1
  have e2 := Nat.div_add_mod N2 D2
  have hr1 := Nat.mod_lt N1 hD1
  have hr2 := Nat.mod_lt N2 hD2
  have hx : D1 * (N1 / D1) * D2 + (N1 % D1) * D2
      ≤ D1 * (N2 / D2) * D2 + (N2 % D2) * D1 := by
    have hh1 : N1 * D2 = D1 * (N1 / D1) * D2 + (N1 % D1) * D2 := by
      conv_lhs => rw [← e1]
      ring
    have hh2 : N2 * D1 = D1 * (N2 / D2) * D2 + (N2 % D2) * D1 := by
      conv_lhs => rw [← e2]
      ring
    rw [hh1, hh2] at h
    exact h
  rcases Nat.lt_trichotomy (N1 / D1) (N2 / D2) with hf | hf | hf
  · have h1 := rhe_le_succ N1 D1
    have h2 := rhe_le N2 D2
    omega
  · by_contra hcon
    push_neg at hcon
    have hb1 := rhe_le N1 D1
    have hb1' := rhe_le_succ N1 D1
    have hb2 := rhe_le N2 D2
    have hb2' := rhe_le_succ N2 D2
    have he1 : rhe N1 D1 = N1 / D1 + 1 := by omega
    have he2 : rhe N2 D2 = N2 / D2 := by omega
    have hc1 := rhe_eq_add_one he1
    have hc2 := rhe_eq_self he2
    have hcross : (N1 % D1) * D2 ≤ (N2 % D2) * D1 := by
      have hfX : D1 * (N1 / D1) * D2 = D1 * (N2 / D2) * D2 := by rw [hf]
      omega
    rcases hc1 with hco1 | ⟨htie1, hodd1⟩ <;> rcases hc2 with hco2 | ⟨htie2, heven2⟩
    · have p1 : D1 * D2 < 2 * (N1 % D1) * D2 :=
        (mul_lt_mul_right hD2).mpr hco1
      have p2 : 2 * (N2 % D2) * D1 < D2 * D1 :=
        (mul_lt_mul_right hD1).mpr hco2
      have q1 : 2 * (N1 % D1) * D2 = 2 * ((N1 % D1) * D2) := by ring
      have q2 : 2 * (N2 % D2) * D1 = 2 * ((N2 % D2) * D1) := by ring
      have q3 : D2 * D1 = D1 * D2 := by ring
      omega
    · have p1 : D1 * D2 < 2 * (N1 % D1) * D2 :=
        (mul_lt_mul_right hD2).mpr hco1
      have p2 : 2 * (N2 % D2) * D1 = D2 * D1 := by rw [htie2]
      have q1 : 2 * (N1 % D1) * D2 = 2 * ((N1 % D1) * D2) := by ring
      have q2 : 2 * (N2 % D2) * D1 = 2 * ((N2 % D2) * D1) := by ring
      have q3 : D2 * D1 = D1 * D2 := by ring
      omega
    · have p1 : 2 * (N1 % D1) * D2 = D1 * D2 := by rw [htie1]
      have p2 : 2 * (N2 % D2) * D1 < D2 * D1 :=
        (mul_lt_mul_right hD1).mpr hco2
      have q1 : 2 * (N1 % D1) * D2 = 2 * ((N1 % D1) * D2) := by ring
      have q2 : 2 * (N2 % D2) * D1 = 2 * ((N2 % D2) * D1) := by ring
      have q3 : D2 * D1 = D1 * D2 := by ring
      omega
    · omega
  · exfalso
    have hstep : D1 * (N2 / D2 + 1) * D2 ≤ D1 * (N1 / D1) * D2 :=
      Nat.mul_le_mul_right D2 (Nat.mul_le_mul_left D1 hf)
    have hrr : (N2 % D2) * D1 < D1 * D2 := by
      calc (N2 % D2) * D1 < D2 * D1 := (mul_lt_mul_right hD1).mpr hr2
      _ = D1 * D2 := Nat.mul_comm D2 D1
    have hexpand : D1 * (N2 / D2 + 1) * D2 = D1 * (N2 / D2) * D2 + D1 * D2 := by
      ring
    omega

theorem rhe_congr {N1 D1 N2 D2 : ℕ} (hD1 : 0 < D1) (hD2 : 0 < D2)
    (h : N1 * D2 = N2 * D1) : rhe N1 D1 = rhe N2 D2 :=
  Nat.le_antisymm (rhe_mono hD1 hD2 (le_of_eq h))
    (rhe_mono hD2 hD1 (le_of_eq h.symm))

theorem log2fuel_correct : ∀ (fuel n : ℕ), 0 < n → n < 2 ^ fuel →
    2 ^ log2fuel fuel n ≤ n ∧ n < 2 ^ (log2fuel fuel n + 1) := by
  intro fuel
  induction fuel with
  | zero =>
    intro n hn hlt
    simp only [pow_zero] at hlt
    omega
  | succ fuel ih =>
    intro n hn hlt
    rw [log2fuel]
    split_ifs with h1
    · have : n = 1 := by omega
      subst this
      simp
    · have hpow : (2:ℕ) ^ (fuel + 1) = 2 ^ fuel * 2 := pow_succ 2 fuel
      have hhalf := ih (n / 2) (by omega) (by omega)
      obtain ⟨hl, hu⟩ := hhalf
      constructor
      · have hpow2 : (2:ℕ) ^ (log2fuel fuel (n / 2) + 1)
            = 2 ^ log2fuel fuel (n / 2) * 2 := pow_succ 2 _
        omega
      · have hpow2 : (2:ℕ) ^ (log2fuel fuel (n / 2) + 1)
            = 2 ^ log2fuel fuel (n / 2) * 2 := pow_succ 2 _
        have hpow3 : (2:ℕ) ^ (log2fuel fuel (n / 2) + 1 + 1)
            = 2 ^ (log2fuel fuel (n / 2) + 1) * 2 := pow_succ 2 _
        omega

theorem natLog2_correct {n : ℕ} (hn : 0 < n) :
    2 ^ natLog2 n ≤ n ∧ n < 2 ^ (natLog2 n + 1) :=
  log2fuel_correct n n hn (Nat.lt_two_pow n)

theorem two_zpow_split (L : ℤ) :
    (2:ℚ) ^ L = ((2 ^ L.toNat : ℕ) : ℚ) / ((2 ^ (-L).toNat : ℕ) : ℚ) := by
  rcases le_or_lt 0 L with h | h
  · rw [Int.toNat_of_nonpos (by omega : -L ≤ 0)]
    push_cast
    rw [div_one, ← zpow_natCast (2:ℚ) L.toNat, Int.toNat_of_nonneg h]
  · rw [Int.toNat_of_nonpos (by omega : L ≤ 0)]
    push_cast
    rw [← zpow_natCast (2:ℚ) (-L).toNat,
      Int.toNat_of_nonneg (by omega : 0 ≤ -L), one_div, ← zpow_neg, neg_neg]

theorem pow2_le_ratio_iff {a b : ℕ} (hb : 0 < b) (L : ℤ) :
    ((2:ℚ) ^ L ≤ (a : ℚ) / b) ↔ b * 2 ^ L.toNat ≤ a * 2 ^ (-L).toNat := by
  have hbq : (0:ℚ) < (b:ℚ) := by exact_mod_cast hb
  have hpq : (0:ℚ) < ((2 ^ (-L).toNat : ℕ) : ℚ) := by positivity
  rw [two_zpow_split, div_le_div_iff hpq hbq, mul_comm]
  exact_mod_cast Iff.rfl

theorem ratio_lt_pow2_iff {a b : ℕ} (hb : 0 < b) (L : ℤ) :
    ((a : ℚ) / b < (2:ℚ) ^ L) ↔ a * 2 ^ (-L).toNat < b * 2 ^ L.toNat := by
  have hbq : (0:ℚ) < (b:ℚ) := by exact_mod_cast hb
  have hpq : (0:ℚ) < ((2 ^ (-L).toNat : ℕ) : ℚ) := by positivity
  rw [two_zpow_split, div_lt_div_iff hbq hpq,
    mul_comm (((2 ^ L.toNat : ℕ) : ℚ)) ((b : ℚ))]
  exact_mod_cast Iff.rfl

theorem log2off_band {a b : ℕ} (ha : 0 < a) (hb : 0 < b) :
    (2:ℚ) ^ (log2off a b - 1) ≤ (a : ℚ) / b ∧
      (a : ℚ) / b < 2 ^ (log2off a b + 1) := by
  obtain ⟨hal, hau⟩ := natLog2_correct ha
  obtain ⟨hbl, hbu⟩ := natLog2_correct hb
  set p := natLog2 a with hp
  set q := natLog2 b with hq
  constructor
  · rw [pow2_le_ratio_iff hb]
    have hL : log2off a b - 1 = (p : ℤ) - q - 1 := by rw [log2off]
    rw [hL]
    rcases le_or_lt (q + 1) p with hc | hc
    · have ht1 : ((p : ℤ) - q - 1).toNat = p - q - 1 := by omega
      have ht2 : (-((p : ℤ) - q - 1)).toNat = 0 := by omega
      rw [ht1, ht2, pow_zero, mul_one]
      have hsplit : 2 ^ (q + 1) * 2 ^ (p - q - 1) = 2 ^ p := by
        rw [← pow_add]; congr 1; omega
      have hb2 : b * 2 ^ (p - q - 1) < 2 ^ (q + 1) * 2 ^ (p - q - 1) :=
        (Nat.mul_lt_mul_right (pow_pos (by norm_num : (0:ℕ) < 2) _)).mpr hbu
      omega
    · have ht1 : ((p : ℤ) - q - 1).toNat = 0 := by omega
      have ht2 : (-((p : ℤ) - q - 1)).toNat = q + 1 - p := by omega
      rw [ht1, ht2, pow_zero, mul_one]
      have hsplit : 2 ^ p * 2 ^ (q + 1 - p) = 2 ^ (q + 1) := by
        rw [← pow_add]; congr 1; omega
      have ha2 : 2 ^ p * 2 ^ (q + 1 - p) ≤ a * 2 ^ (q + 1 - p) :=
        Nat.mul_le_mul_right _ hal
      omega
  · rw [ratio_lt_pow2_iff hb]
    have hL : log2off a b + 1 = (p : ℤ) - q + 1 := by rw [log2off]
    rw [hL]
    rcases le_or_lt q (p + 1) with hc | hc
    · have ht1 : ((p : ℤ) - q + 1).toNat = p + 1 - q := by omega
      have ht2 : (-((p : ℤ) - q + 1)).toNat = 0 := by omega
      rw [ht1, ht2, pow_zero, mul_one]
      have hsplit : 2 ^ q * 2 ^ (p + 1 - q) = 2 ^ (p + 1) := by
        rw [← pow_add]; congr 1; omega
      have hb2 : 2 ^ q * 2 ^ (p + 1 - q) ≤ b * 2 ^ (p + 1 - q) :=
        Nat.mul_le_mul_right _ hbl
      omega
    · have ht1 : ((p : ℤ) - q + 1).toNat = 0 := by omega
      have ht2 : (-((p : ℤ) - q + 1)).toNat = q - p - 1 := by omega
      rw [ht1, ht2, pow_zero, mul_one]
      have hsplit : 2 ^ (p + 1) * 2 ^ (q - p - 1) = 2 ^ q := by
        rw [← pow_add]; congr 1; omega
      have ha2 : a * 2 ^ (q - p - 1) < 2 ^ (p + 1) * 2 ^ (q - p - 1) :=
        (Nat.mul_lt_mul_right (pow_pos (by norm_num : (0:ℕ) < 2) _)).mpr hau
      omega

theorem log2off_test {a b : ℕ} (hb : 0 < b) :
    ((2:ℚ) ^ log2off a b ≤ (a : ℚ) / b) ↔
      (if 0 ≤ log2off a b then b * 2 ^ (log2off a b).toNat ≤ a
       else b ≤ a * 2 ^ (-log2off a b).toNat) := by
  rw [pow2_le_ratio_iff hb]
  split_ifs with h
  · rw [Int.toNat_of_nonpos (by omega : -log2off a b ≤ 0), pow_zero, mul_one]
  · rw [Int.toNat_of_nonpos (by omega : log2off a b ≤ 0), pow_zero, mul_one]

theorem floorLog2_correct {a b : ℕ} (ha : 0 < a) (hb : 0 < b) :
    (2:ℚ) ^ floorLog2 a b ≤ (a : ℚ) / b ∧
      (a : ℚ) / b < 2 ^ (floorLog2 a b + 1) := by
  obtain ⟨hlo, hhi⟩ := log2off_band ha hb
  by_cases hc : (2:ℚ) ^ log2off a b ≤ (a : ℚ) / b
  · have hc' := (log2off_test hb).mp hc
    have hfl : floorLog2 a b = log2off a b := by
      rw [floorLog2]
      rcases le_or_lt 0 (log2off a b) with h1 | h1
      · rw [if_pos h1] at hc'
        rw [if_pos h1, if_pos hc']
      · rw [if_neg (by omega)] at hc'
        rw [if_neg (by omega), if_pos hc']
    rw [hfl]
    exact ⟨hc, hhi⟩
  · have hc' : ¬ (if 0 ≤ log2off a b then b * 2 ^ (log2off a b).toNat ≤ a
        else b ≤ a * 2 ^ (-log2off a b).toNat) := fun h =>
      hc ((log2off_test hb).mpr h)
    have hfl : floorLog2 a b = log2off a b - 1 := by
      rw [floorLog2]
      rcases le_or_lt 0 (log2off a b) with h1 | h1
      · rw [if_pos h1] at hc'
        rw [if_pos h1, if_neg hc']
      · rw [if_neg (by omega)] at hc'
        rw [if_neg (by omega), if_neg hc']
    rw [hfl]
    refine ⟨hlo, ?_⟩
    rw [sub_add_cancel]
    exact lt_of_not_ge hc

theorem zpow_band_unique {q : ℚ} {L M : ℤ}
    (hL : (2:ℚ) ^ L ≤ q ∧ q < 2 ^ (L + 1))
    (hM : (2:ℚ) ^ M ≤ q ∧ q < 2 ^ (M + 1)) : L = M := by
  by_contra hne
  rcases Int.lt_or_lt_of_ne hne with h | h
  · have h1 : (2:ℚ) ^ (L + 1) ≤ 2 ^ M :=
      zpow_le_zpow_right₀ (by norm_num) (by omega)
    have h2 := lt_of_lt_of_le hL.2 h1
    exact absurd (lt_of_le_of_lt hM.1 h2) (lt_irrefl _)
  · have h1 : (2:ℚ) ^ (M + 1) ≤ 2 ^ L :=
      zpow_le_zpow_right₀ (by norm_num) (by omega)
    have h2 := lt_of_lt_of_le hM.2 h1
    exact absurd (lt_of_le_of_lt hL.1 h2) (lt_irrefl _)

theorem floorLog2_congr {a1 b1 a2 b2 : ℕ} (ha1 : 0 < a1) (hb1 : 0 < b1)
    (ha2 : 0 < a2) (hb2 : 0 < b2)
    (h : (a1 : ℚ) / b1 = (a2 : ℚ) / b2) :
    floorLog2 a1 b1 = floorLog2 a2 b2 :=
  zpow_band_unique (floorLog2_correct ha1 hb1)
    (h ▸ floorLog2_correct ha2 hb2)

theorem roundD_pos {a b : ℕ} (hb : 0 < b) : 0 < roundD a b := by
  rw [roundD]
  split_ifs
  · exact Nat.mul_pos hb (pow_pos (by norm_num) _)
  · exact hb

theorem roundN_pos {a b : ℕ} (ha : 0 < a) : 0 < roundN a b := by
  rw [roundN]
  split_ifs
  · exact ha
  · exact Nat.mul_pos ha (pow_pos (by norm_num) _)

theorem roundND_ratio {a b : ℕ} (hb : 0 < b) :
    (roundN a b : ℚ) / (roundD a b : ℚ) =
      ((a : ℚ) / b) * (2 : ℚ) ^ (-roundShift a b) := by
  have hbq : ((b : ℚ)) ≠ 0 := by positivity
  rw [roundN, roundD]
  split_ifs with hk
  · have h2 : ((2 ^ (roundShift a b).toNat : ℕ) : ℚ) = (2:ℚ) ^ roundShift a b := by
      push_cast
      rw [← zpow_natCast (2:ℚ) (roundShift a b).toNat, Int.toNat_of_nonneg hk]
    push_cast
    rw [show ((2:ℚ) ^ (roundShift a b).toNat = (2:ℚ) ^ roundShift a b) from by
      rw [← zpow_natCast (2:ℚ) (roundShift a b).toNat, Int.toNat_of_nonneg hk]]
    rw [zpow_neg]
    have hzp : ((2:ℚ) ^ roundShift a b) ≠ 0 := by
      apply zpow_ne_zero; norm_num
    field_simp
  · push_cast
    rw [show ((2:ℚ) ^ (-roundShift a b).toNat = (2:ℚ) ^ (-roundShift a b)) from by
      rw [← zpow_natCast (2:ℚ) (-roundShift a b).toNat,
        Int.toNat_of_nonneg (by omega : 0 ≤ -roundShift a b)]]
    ring

theorem roundND_band {a b : ℕ} (ha : 0 < a) (hb : 0 < b) :
    (2:ℚ) ^ (52 : ℤ) ≤ (roundN a b : ℚ) / (roundD a b : ℚ) ∧
      (roundN a b : ℚ) / (roundD a b : ℚ) < 2 ^ (53 : ℤ) := by
  obtain ⟨hlo, hhi⟩ := floorLog2_correct ha hb
  have hratio := roundND_ratio (a := a) hb
  have hzpos : (0:ℚ) < (2:ℚ) ^ (-roundShift a b) := by
    apply zpow_pos; norm_num
  constructor
  · rw [hratio]
    have h1 : (2:ℚ) ^ (52 : ℤ) = (2:ℚ) ^ floorLog2 a b * 2 ^ (-roundShift a b) := by
      rw [← zpow_add₀ (by norm_num : (2:ℚ) ≠ 0)]
      congr 1
      rw [roundShift]
      ring
    rw [h1]
    exact mul_le_mul_of_nonneg_right hlo (le_of_lt hzpos)
  · rw [hratio]
    have h1 : (2:ℚ) ^ (53 : ℤ)
        = (2:ℚ) ^ (floorLog2 a b + 1) * 2 ^ (-roundShift a b) := by
      rw [← zpow_add₀ (by norm_num : (2:ℚ) ≠ 0)]
      congr 1
      rw [roundShift]
      ring
    rw [h1]
    exact mul_lt_mul_of_pos_right hhi hzpos

theorem roundND_nat_band {a b : ℕ} (ha : 0 < a) (hb : 0 < b) :
    roundD a b * 2 ^ 52 ≤ roundN a b ∧ roundN a b < roundD a b * 2 ^ 53 := by
  obtain ⟨hlo, hhi⟩ := roundND_band ha hb
  have hD := roundD_pos (a := a) hb
  constructor
  · have h := (pow2_le_ratio_iff hD (52 : ℤ)).mp hlo
    simpa using h
  · have h := (ratio_lt_pow2_iff hD (53 : ℤ)).mp hhi
    simpa using h

theorem rhe_band {a b : ℕ} (ha : 0 < a) (hb : 0 < b) :
    2 ^ 52 ≤ rhe (roundN a b) (roundD a b) ∧
      rhe (roundN a b) (roundD a b) ≤ 2 ^ 53 := by
  obtain ⟨hlo, hhi⟩ := roundND_nat_band ha hb
  have hD := roundD_pos (a := a) hb
  have hf1 : 2 ^ 52 ≤ roundN a b / roundD a b := by
    rw [Nat.le_div_iff_mul_le hD]
    calc 2 ^ 52 * roundD a b = roundD a b * 2 ^ 52 := Nat.mul_comm _ _
    _ ≤ roundN a b := hlo
  have hf2 : roundN a b / roundD a b < 2 ^ 53 := by
    rw [Nat.div_lt_iff_lt_mul hD]
    calc roundN a b < roundD a b * 2 ^ 53 := hhi
    _ = 2 ^ 53 * roundD a b := Nat.mul_comm _ _
  have h1 := rhe_le (roundN a b) (roundD a b)
  have h2 := rhe_le_succ (roundN a b) (roundD a b)
  omega

theorem roundPosDy_toQ (a b : ℕ) :
    (roundPosDy a b).toQ =
      ((rhe (roundN a b) (roundD a b) : ℕ) : ℚ) * (2:ℚ) ^ roundShift a b := rfl

theorem roundPosDy_band {a b : ℕ} (ha : 0 < a) (hb : 0 < b) :
    (2:ℚ) ^ floorLog2 a b ≤ (roundPosDy a b).toQ ∧
      (roundPosDy a b).toQ ≤ 2 ^ (floorLog2 a b + 1) := by
  obtain ⟨hlo, hhi⟩ := rhe_band ha hb
  have hzpos : (0:ℚ) < (2:ℚ) ^ roundShift a b := by
    apply zpow_pos; norm_num
  have hcast_lo : ((2 ^ 52 : ℕ) : ℚ) ≤ ((rhe (roundN a b) (roundD a b) : ℕ) : ℚ) :=
    Nat.cast_le.mpr hlo
  have hcast_hi : ((rhe (roundN a b) (roundD a b) : ℕ) : ℚ) ≤ ((2 ^ 53 : ℕ) : ℚ) :=
    Nat.cast_le.mpr hhi
  have h52 : ((2 ^ 52 : ℕ) : ℚ) * (2:ℚ) ^ roundShift a b
      = (2:ℚ) ^ floorLog2 a b := by
    have hlit : ((2 ^ 52 : ℕ) : ℚ) = (2:ℚ) ^ (52 : ℤ) := by norm_num
    rw [hlit, ← zpow_add₀ (by norm_num : (2:ℚ) ≠ 0)]
    congr 1
    rw [roundShift]
    ring
  have h53 : ((2 ^ 53 : ℕ) : ℚ) * (2:ℚ) ^ roundShift a b
      = (2:ℚ) ^ (floorLog2 a b + 1) := by
    have hlit : ((2 ^ 53 : ℕ) : ℚ) = (2:ℚ) ^ (53 : ℤ) := by norm_num
    rw [hlit, ← zpow_add₀ (by norm_num : (2:ℚ) ≠ 0)]
    congr 1
    rw [roundShift]
    ring
  rw [roundPosDy_toQ]
  constructor
  · rw [← h52]
    exact mul_le_mul_of_nonneg_right hcast_lo (le_of_lt hzpos)
  · rw [← h53]
    exact mul_le_mul_of_nonneg_right hcast_hi (le_of_lt hzpos)

theorem roundPosDy_cross {a1 b1 a2 b2 : ℕ} (hb1 : 0 < b1) (hb2 : 0 < b2)
    (hL : roundShift a1 b1 = roundShift a2 b2)
    (h : (a1 : ℚ) / b1 ≤ (a2 : ℚ) / b2) :
    roundN a1 b1 * roundD a2 b2 ≤ roundN a2 b2 * roundD a1 b1 := by
  have hq : (roundN a1 b1 : ℚ) / roundD a1 b1
      ≤ (roundN a2 b2 : ℚ) / roundD a2 b2 := by
    rw [roundND_ratio hb1, roundND_ratio hb2, hL]
    exact mul_le_mul_of_nonneg_right h
      (le_of_lt (zpow_pos (by norm_num) _))
  have hD1 : (0:ℚ) < (roundD a1 b1 : ℚ) := by
    exact_mod_cast roundD_pos (a := a1) hb1
  have hD2 : (0:ℚ) < (roundD a2 b2 : ℚ) := by
    exact_mod_cast roundD_pos (a := a2) hb2
  rw [div_le_div_iff hD1 hD2] at hq
  exact_mod_cast hq

theorem roundPosDy_mono {a1 b1 a2 b2 : ℕ} (ha1 : 0 < a1) (hb1 : 0 < b1)
    (ha2 : 0 < a2) (hb2 : 0 < b2)
    (h : (a1 : ℚ) / b1 ≤ (a2 : ℚ) / b2) :
    (roundPosDy a1 b1).toQ ≤ (roundPosDy a2 b2).toQ := by
  obtain ⟨hlo1, hhi1⟩ := floorLog2_correct ha1 hb1
  obtain ⟨hlo2, hhi2⟩ := floorLog2_correct ha2 hb2
  have hL : floorLog2 a1 b1 ≤ floorLog2 a2 b2 := by
    by_contra hcon
    push_neg at hcon
    have h1 : (2:ℚ) ^ (floorLog2 a2 b2 + 1) ≤ 2 ^ floorLog2 a1 b1 :=
      zpow_le_zpow_right₀ (by norm_num) (by omega)
    have h2 : (a2 : ℚ) / b2 < (a1 : ℚ) / b1 :=
      lt_of_lt_of_le (lt_of_lt_of_le hhi2 h1) hlo1
    exact absurd (lt_of_le_of_lt h h2) (lt_irrefl _)
  rcases eq_or_lt_of_le hL with heq | hlt
  · have hk : roundShift a1 b1 = roundShift a2 b2 := by
      rw [roundShift, roundShift, heq]
    have hcross := roundPosDy_cross hb1 hb2 hk h
    have hm : rhe (roundN a1 b1) (roundD a1 b1)
        ≤ rhe (roundN a2 b2) (roundD a2 b2) :=
      rhe_mono (roundD_pos hb1) (roundD_pos hb2) hcross
    rw [roundPosDy_toQ, roundPosDy_toQ, hk]
    exact mul_le_mul_of_nonneg_right (Nat.cast_le.mpr hm)
      (le_of_lt (zpow_pos (by norm_num) _))
  · have h1 := (roundPosDy_band ha1 hb1).2
    have h2 := (roundPosDy_band ha2 hb2).1
    have h3 : (2:ℚ) ^ (floorLog2 a1 b1 + 1) ≤ 2 ^ floorLog2 a2 b2 :=
      zpow_le_zpow_right₀ (by norm_num) (by omega)
    exact le_trans h1 (le_trans h3 h2)

theorem roundPosDy_congr {a1 b1 a2 b2 : ℕ} (ha1 : 0 < a1) (hb1 : 0 < b1)
    (ha2 : 0 < a2) (hb2 : 0 < b2)
    (h : (a1 : ℚ) / b1 = (a2 : ℚ) / b2) :
    roundPosDy a1 b1 = roundPosDy a2 b2 := by
  have hL : floorLog2 a1 b1 = floorLog2 a2 b2 :=
    floorLog2_congr ha1 hb1 ha2 hb2 h
  have hk : roundShift a1 b1 = roundShift a2 b2 := by
    rw [roundShift, roundShift, hL]
  have hc1 := roundPosDy_cross hb1 hb2 hk (le_of_eq h)
  have hc2 := roundPosDy_cross hb2 hb1 hk.symm (le_of_eq h.symm)
  have hm : rhe (roundN a1 b1) (roundD a1 b1)
      = rhe (roundN a2 b2) (roundD a2 b2) :=
    Nat.le_antisymm (rhe_mono (roundD_pos hb1) (roundD_pos hb2) hc1)
      (rhe_mono (roundD_pos hb2) (roundD_pos hb1) hc2)
  rw [roundPosDy, roundPosDy, hm, hk]

theorem roundIntRat_pos_def {num : ℤ} {den : ℕ} (h : 0 < num) :
    roundIntRat num den = roundPosDy num.toNat den := by
  rw [roundIntRat, if_pos h]

theorem roundIntRat_neg_def {num : ℤ} {den : ℕ} (h : num < 0) :
    roundIntRat num den =
      ⟨-(roundPosDy (-num).toNat den).m, (roundPosDy (-num).toNat den).e⟩ := by
  rw [roundIntRat, if_neg (by omega), if_pos h]

theorem roundIntRat_zero_def {den : ℕ} : roundIntRat 0 den = ⟨0, 0⟩ := by
  rw [roundIntRat]
  norm_num

theorem mk_neg_toQ (m e : ℤ) : (Dy.mk (-m) e).toQ = -(Dy.mk m e).toQ := by
  rw [Dy.toQ, Dy.toQ]
  push_cast
  ring

theorem roundPosDy_toQ_pos {a b : ℕ} (ha : 0 < a) (hb : 0 < b) :
    0 < (roundPosDy a b).toQ :=
  lt_of_lt_of_le (zpow_pos (by norm_num) _) (roundPosDy_band ha hb).1

theorem roundPosDy_m_nonneg (a b : ℕ) : 0 ≤ (roundPosDy a b).m := by
  rw [roundPosDy]
  positivity

theorem roundPosDy_toQ_nonneg (a b : ℕ) : 0 ≤ (roundPosDy a b).toQ := by
  rw [Dy.toQ]
  have h1 : (0:ℚ) ≤ ((roundPosDy a b).m : ℚ) := by
    exact_mod_cast roundPosDy_m_nonneg a b
  exact mul_nonneg h1 (le_of_lt (zpow_pos (by norm_num) _))

theorem intCast_toNat {n : ℤ} (h : 0 ≤ n) : ((n.toNat : ℕ) : ℚ) = (n : ℚ) := by
  exact_mod_cast Int.toNat_of_nonneg h

theorem roundIntRat_m_nonneg {num : ℤ} {den : ℕ} (h : 0 ≤ num) :
    0 ≤ (roundIntRat num den).m := by
  rcases lt_or_eq_of_le h with h1 | h1
  · rw [roundIntRat_pos_def h1]
    exact roundPosDy_m_nonneg _ _
  · rw [← h1, roundIntRat_zero_def]

theorem roundIntRat_mono {n1 n2 : ℤ} {d1 d2 : ℕ} (hd1 : 0 < d1) (hd2 : 0 < d2)
    (h : (n1 : ℚ) / d1 ≤ (n2 : ℚ) / d2) :
    (roundIntRat n1 d1).toQ ≤ (roundIntRat n2 d2).toQ := by
  have hd1q : (0:ℚ) < (d1 : ℚ) := by exact_mod_cast hd1
  have hd2q : (0:ℚ) < (d2 : ℚ) := by exact_mod_cast hd2
  rcases lt_trichotomy 0 n1 with h1 | h1 | h1 <;>
    rcases lt_trichotomy 0 n2 with h2 | h2 | h2
  · -- pos, pos
    rw [roundIntRat_pos_def h1, roundIntRat_pos_def h2]
    apply roundPosDy_mono (by omega) hd1 (by omega) hd2
    rw [intCast_toNat (le_of_lt h1), intCast_toNat (le_of_lt h2)]
    exact h
  · -- pos, zero
    exfalso
    have hq1 : (0:ℚ) < (n1 : ℚ) / d1 :=
      div_pos (by exact_mod_cast h1) hd1q
    rw [← h2] at h
    simp at h
    linarith
  · -- pos, neg
    exfalso
    have hq1 : (0:ℚ) < (n1 : ℚ) / d1 :=
      div_pos (by exact_mod_cast h1) hd1q
    have hq2 : (n2 : ℚ) / d2 < 0 :=
      div_neg_of_neg_of_pos (by exact_mod_cast h2) hd2q
    linarith
  · -- zero, pos
    rw [← h1, roundIntRat_zero_def, roundIntRat_pos_def h2]
    have : (Dy.mk 0 0).toQ = 0 := by rw [Dy.toQ]; norm_num
    rw [this]
    exact le_of_lt (roundPosDy_toQ_pos (by omega) hd2)
  · -- zero, zero
    rw [← h1, ← h2]
    exact le_refl _
  · -- zero, neg
    exfalso
    have hq2 : (n2 : ℚ) / d2 < 0 :=
      div_neg_of_neg_of_pos (by exact_mod_cast h2) hd2q
    rw [← h1] at h
    simp at h
    linarith
  · -- neg, pos
    rw [roundIntRat_neg_def h1, roundIntRat_pos_def h2]
    have hneg : (Dy.mk (-(roundPosDy (-n1).toNat d1).m)
        ((roundPosDy (-n1).toNat d1).e)).toQ
        = -((roundPosDy (-n1).toNat d1).toQ) := mk_neg_toQ _ _
    rw [hneg]
    have h1' := roundPosDy_toQ_nonneg (-n1).toNat d1
    have h2' := roundPosDy_toQ_nonneg n2.toNat d2
    linarith
  · -- neg, zero
    rw [roundIntRat_neg_def h1, ← h2, roundIntRat_zero_def]
    have hneg : (Dy.mk (-(roundPosDy (-n1).toNat d1).m)
        ((roundPosDy (-n1).toNat d1).e)).toQ
        = -((roundPosDy (-n1).toNat d1).toQ) := mk_neg_toQ _ _
    rw [hneg]
    have h1' := roundPosDy_toQ_nonneg (-n1).toNat d1
    have hz : (Dy.mk 0 0).toQ = 0 := by rw [Dy.toQ]; norm_num
    rw [hz]
    linarith
  · -- neg, neg
    rw [roundIntRat_neg_def h1, roundIntRat_neg_def h2]
    rw [mk_neg_toQ, mk_neg_toQ]
    apply neg_le_neg
    apply roundPosDy_mono (by omega) hd2 (by omega) hd1
    rw [intCast_toNat (by omega : (0:ℤ) ≤ -n2),
      intCast_toNat (by omega : (0:ℤ) ≤ -n1)]
    push_cast
    rw [div_le_div_iff hd2q hd1q]
    rw [div_le_div_iff hd1q hd2q] at h
    linarith

theorem roundIntRat_congr {n1 n2 : ℤ} {d1 d2 : ℕ} (hd1 : 0 < d1) (hd2 : 0 < d2)
    (h : (n1 : ℚ) / d1 = (n2 : ℚ) / d2) :
    roundIntRat n1 d1 = roundIntRat n2 d2 := by
  have hd1q : (0:ℚ) < (d1 : ℚ) := by exact_mod_cast hd1
  have hd2q : (0:ℚ) < (d2 : ℚ) := by exact_mod_cast hd2
  have hsign : (0 < n1 ↔ 0 < n2) ∧ (n1 < 0 ↔ n2 < 0) := by
    constructor
    · constructor <;> intro hs
      · have hq : (0:ℚ) < (n2 : ℚ) / d2 := by
          rw [← h]; exact div_pos (by exact_mod_cast hs) hd1q
        by_contra hc
        have : (n2 : ℚ) / d2 ≤ 0 := by
          apply div_nonpos_of_nonpos_of_nonneg _ (le_of_lt hd2q)
          exact_mod_cast (by omega : n2 ≤ 0)
        linarith
      · have hq : (0:ℚ) < (n1 : ℚ) / d1 := by
          rw [h]; exact div_pos (by exact_mod_cast hs) hd2q
        by_contra hc
        have : (n1 : ℚ) / d1 ≤ 0 := by
          apply div_nonpos_of_nonpos_of_nonneg _ (le_of_lt hd1q)
          exact_mod_cast (by omega : n1 ≤ 0)
        linarith
    · constructor <;> intro hs
      · have hq : (n1 : ℚ) / d1 < 0 :=
          div_neg_of_neg_of_pos (by exact_mod_cast hs) hd1q
        by_contra hc
        have : (0:ℚ) ≤ (n2 : ℚ) / d2 := by
          apply div_nonneg _ (le_of_lt hd2q)
          exact_mod_cast (by omega : 0 ≤ n2)
        rw [← h] at this
        linarith
      · have hq : (n2 : ℚ) / d2 < 0 :=
          div_neg_of_neg_of_pos (by exact_mod_cast hs) hd2q
        by_contra hc
        have : (0:ℚ) ≤ (n1 : ℚ) / d1 := by
          apply div_nonneg _ (le_of_lt hd1q)
          exact_mod_cast (by omega : 0 ≤ n1)
        rw [h] at this
        linarith
  rcases lt_trichotomy 0 n1 with h1 | h1 | h1
  · have h2 : 0 < n2 := hsign.1.mp h1
    rw [roundIntRat_pos_def h1, roundIntRat_pos_def h2]
    apply roundPosDy_congr (by omega) hd1 (by omega) hd2
    rw [intCast_toNat (le_of_lt h1), intCast_toNat (le_of_lt h2)]
    exact h
  · have h2 : n2 = 0 := by
      by_contra hc
      rcases lt_trichotomy 0 n2 with hc2 | hc2 | hc2
      · exact absurd (hsign.1.mpr hc2) (by omega)
      · exact hc hc2.symm
      · exact absurd (hsign.2.mpr hc2) (by omega)
    rw [← h1, h2, roundIntRat_zero_def, roundIntRat_zero_def]
  · have h2 : n2 < 0 := hsign.2.mp h1
    rw [roundIntRat_neg_def h1, roundIntRat_neg_def h2]
    have hpd : roundPosDy (-n1).toNat d1 = roundPosDy (-n2).toNat d2 := by
      apply roundPosDy_congr (by omega) hd1 (by omega) hd2
      rw [intCast_toNat (by omega : (0:ℤ) ≤ -n1),
        intCast_toNat (by omega : (0:ℤ) ≤ -n2)]
      push_cast
      rw [div_eq_div_iff (ne_of_gt hd1q) (ne_of_gt hd2q)]
      rw [div_eq_div_iff (ne_of_gt hd1q) (ne_of_gt hd2q)] at h
      linarith
    rw [hpd]

theorem dyToPair_snd_pos (x : Dy) : 0 < (dyToPair x).2 := by
  rw [dyToPair]
  split_ifs
  · norm_num
  · exact pow_pos (by norm_num) _

theorem dyToPair_ratio (x : Dy) :
    ((dyToPair x).1 : ℚ) / ((dyToPair x).2 : ℚ) = x.toQ := by
  rw [dyToPair, Dy.toQ]
  split_ifs with he
  · simp only [Nat.cast_one, div_one]
    push_cast
    rw [← zpow_natCast (2:ℚ) x.e.toNat, Int.toNat_of_nonneg he]
  · simp only []
    rw [div_eq_mul_inv]
    congr 1
    push_cast
    rw [← zpow_natCast (2:ℚ) (-x.e).toNat,
      Int.toNat_of_nonneg (by omega : 0 ≤ -x.e), ← zpow_neg, neg_neg]

theorem dyToPair_fst_nonneg {x : Dy} (h : 0 ≤ x.m) : 0 ≤ (dyToPair x).1 := by
  rw [dyToPair]
  split_ifs
  · exact mul_nonneg h (by positivity)
  · exact h

theorem roundDy_mono {x y : Dy} (h : x.toQ ≤ y.toQ) :
    (roundDy x).toQ ≤ (roundDy y).toQ := by
  rw [roundDy, roundDy]
  apply roundIntRat_mono (dyToPair_snd_pos x) (dyToPair_snd_pos y)
  rw [dyToPair_ratio, dyToPair_ratio]
  exact h

theorem roundDy_congr {x y : Dy} (h : x.toQ = y.toQ) : roundDy x = roundDy y := by
  rw [roundDy, roundDy]
  apply roundIntRat_congr (dyToPair_snd_pos x) (dyToPair_snd_pos y)
  rw [dyToPair_ratio, dyToPair_ratio]
  exact h

theorem roundDy_m_nonneg {x : Dy} (h : 0 ≤ x.m) : 0 ≤ (roundDy x).m :=
  roundIntRat_m_nonneg (dyToPair_fst_nonneg h)

theorem dyScale100_toQ (x : Dy) : (Dy.mk (x.m * 100) x.e).toQ = x.toQ * 100 := by
  rw [Dy.toQ, Dy.toQ]
  push_cast
  ring

theorem dyFloorNat_eq {x : Dy} (h : 0 ≤ x.m) : dyFloorNat x = ⌊x.toQ⌋₊ := by
  rw [dyFloorNat, Dy.toQ]
  split_ifs with he
  · have hq : (x.m : ℚ) * (2:ℚ) ^ x.e = ((x.m.toNat * 2 ^ x.e.toNat : ℕ) : ℚ) := by
      push_cast
      rw [intCast_toNat h, ← zpow_natCast (2:ℚ) x.e.toNat, Int.toNat_of_nonneg he]
    rw [hq, Nat.floor_natCast]
  · have hq : (x.m : ℚ) * (2:ℚ) ^ x.e
        = ((x.m.toNat : ℕ) : ℚ) / ((2 ^ (-x.e).toNat : ℕ) : ℚ) := by
      push_cast
      rw [intCast_toNat h, div_eq_mul_inv]
      congr 1
      rw [← zpow_natCast (2:ℚ) (-x.e).toNat,
        Int.toNat_of_nonneg (by omega : 0 ≤ -x.e), ← zpow_neg, neg_neg]
    rw [hq, Nat.floor_div_nat, Nat.floor_natCast]

theorem dy_toQ_nonneg {x : Dy} (h : 0 ≤ x.m) : 0 ≤ x.toQ := by
  rw [Dy.toQ]
  have h1 : (0:ℚ) ≤ (x.m : ℚ) := by exact_mod_cast h
  exact mul_nonneg h1 (le_of_lt (zpow_pos (by norm_num) _))

theorem progressValue_m_nonneg (i total : ℕ) :
    0 ≤ (roundDy ⟨(roundIntRat ((i : ℤ) + 1) total).m * 100,
      (roundIntRat ((i : ℤ) + 1) total).e⟩).m :=
  roundDy_m_nonneg
    (mul_nonneg (roundIntRat_m_nonneg (by omega)) (by norm_num))

theorem progressValue_mono {i j total : ℕ} (htotal : 0 < total) (hij : i ≤ j) :
    progressValue i total ≤ progressValue j total := by
  have htq : (0:ℚ) < (total : ℚ) := by exact_mod_cast htotal
  have h1 : ((((i : ℤ) + 1) : ℤ) : ℚ) / total ≤ ((((j : ℤ) + 1) : ℤ) : ℚ) / total := by
    have h0 : ((((i : ℤ) + 1) : ℤ) : ℚ) ≤ ((((j : ℤ) + 1) : ℤ) : ℚ) := by
      exact_mod_cast (by omega : (i : ℤ) + 1 ≤ (j : ℤ) + 1)
    gcongr
  have h2 : (roundIntRat ((i : ℤ) + 1) total).toQ
      ≤ (roundIntRat ((j : ℤ) + 1) total).toQ :=
    roundIntRat_mono htotal htotal h1
  have h3 : (Dy.mk ((roundIntRat ((i : ℤ) + 1) total).m * 100)
        ((roundIntRat ((i : ℤ) + 1) total).e)).toQ
      ≤ (Dy.mk ((roundIntRat ((j : ℤ) + 1) total).m * 100)
        ((roundIntRat ((j : ℤ) + 1) total).e)).toQ := by
    rw [dyScale100_toQ, dyScale100_toQ]
    exact mul_le_mul_of_nonneg_right h2 (by norm_num)
  have h4 := roundDy_mono h3
  rw [progressValue, progressValue,
    dyFloorNat_eq (progressValue_m_nonneg i total),
    dyFloorNat_eq (progressValue_m_nonneg j total)]
  exact Nat.floor_mono h4

theorem progressValue_last {total : ℕ} (htotal : 0 < total) :
    progressValue (total - 1) total = 100 := by
  rw [progressValue]
  rw [show (((total - 1 : ℕ) : ℤ) + 1) = (total : ℤ) from by omega]
  rw [show roundIntRat (total : ℤ) total = roundIntRat 1 1 from
    roundIntRat_congr htotal one_pos (by
      push_cast
      rw [div_one, div_self (by positivity : (total:ℚ) ≠ 0)])]
  decide

theorem progressValue_lt_100 {j total : ℕ} (h53 : total ≤ 2 ^ 53)
    (hj : j + 1 < total) : progressValue j total < 100 := by
  have htotal : 0 < total := by omega
  have htq : (0:ℚ) < (total : ℚ) := by exact_mod_cast htotal
  have hpq : (0:ℚ) < ((2 ^ 53 : ℕ) : ℚ) := by positivity
  have h1 : ((((j : ℤ) + 1) : ℤ) : ℚ) / total
      ≤ (((2 ^ 53 - 1 : ℤ)) : ℚ) / ((2 ^ 53 : ℕ) : ℚ) := by
    rw [div_le_div_iff htq hpq]
    have hz : ((j : ℤ) + 1) * ((2 : ℤ) ^ 53) ≤ ((2 : ℤ) ^ 53 - 1) * (total : ℤ) := by
      have hpow : (2:ℤ) ^ 53 = 9007199254740992 := by norm_num
      rw [hpow]
      have h53' : (total : ℤ) ≤ 9007199254740992 := by
        exact_mod_cast (by omega : total ≤ 9007199254740992)
      have hj' : (j : ℤ) + 1 + 1 ≤ (total : ℤ) := by exact_mod_cast hj
      nlinarith
    exact_mod_cast hz
  have h2 : (roundIntRat ((j : ℤ) + 1) total).toQ
      ≤ (roundIntRat (2 ^ 53 - 1 : ℤ) (2 ^ 53)).toQ :=
    roundIntRat_mono htotal (by positivity) h1
  have hconc : roundIntRat (2 ^ 53 - 1 : ℤ) (2 ^ 53) = ⟨2 ^ 53 - 1, -53⟩ := by
    decide
  rw [hconc] at h2
  have h3 : (Dy.mk ((roundIntRat ((j : ℤ) + 1) total).m * 100)
        ((roundIntRat ((j : ℤ) + 1) total).e)).toQ
      ≤ (Dy.mk ((2 ^ 53 - 1) * 100) (-53)).toQ := by
    rw [dyScale100_toQ]
    rw [show (Dy.mk ((2 ^ 53 - 1) * 100) (-53)).toQ
        = (Dy.mk (2 ^ 53 - 1) (-53)).toQ * 100 from dyScale100_toQ ⟨2 ^ 53 - 1, -53⟩]
    exact mul_le_mul_of_nonneg_right h2 (by norm_num)
  have h4 := roundDy_mono h3
  have hconc2 : roundDy (Dy.mk ((2 ^ 53 - 1) * 100) (-53))
      = ⟨7036874417766399, -46⟩ := by decide
  rw [hconc2] at h4
  have h5 : (Dy.mk 7036874417766399 (-46)).toQ < 100 := by
    rw [Dy.toQ]
    rw [show ((-46 : ℤ)) = -((46 : ℕ) : ℤ) from by norm_num, zpow_neg,
      zpow_natCast]
    rw [mul_inv_lt_iff₀ (by positivity)]
    norm_num
  have h6 : (roundDy (Dy.mk ((roundIntRat ((j : ℤ) + 1) total).m * 100)
      ((roundIntRat ((j : ℤ) + 1) total).e))).toQ < 100 := lt_of_le_of_lt h4 h5
  rw [progressValue, dyFloorNat_eq (progressValue_m_nonneg j total)]
  rw [Nat.floor_lt (dy_toQ_nonneg (progressValue_m_nonneg j total))]
  exact_mod_cast h6

/-! ### Claims about `process_image` -/

/-- C1: for every placement mode (fit, crop, auto) and every source
image with positive width and height, the buffer produced by
`process_image` before encoding has dimensions exactly the configured
target size, and sources smaller than the target in either dimension are
handled like any other (the embedding is total and the conclusion holds
for them as well). -/
theorem processImage_output_dims_eq_target (m : CropMode) (w h tw th : ℕ)
    (hw : 0 < w) (hh : 0 < h) (htw : 0 < tw) (hth : 0 < th) :
    processImageDims m w h tw th = (tw, th) := by
  unfold processImageDims compositePlan
  cases actualCropMode m w h tw th
  · rfl
  · simp only [Plan.resultSize, mkCropPlan]
    split <;> simp_all
  · rfl

/-- C1 witness: a 3 × 5 source (smaller than the 480 × 800 target in
both axes) composites to exactly 480 × 800 in every mode. -/
theorem processImage_output_dims_eq_target_witness :
    (0 < 3 ∧ 0 < 5 ∧ 0 < 480 ∧ 0 < 800) ∧
    processImageDims .fit 3 5 480 800 = (480, 800) ∧
    processImageDims .crop 3 5 480 800 = (480, 800) ∧
    processImageDims .auto 3 5 480 800 = (480, 800) :=
  ⟨by decide,
    processImage_output_dims_eq_target .fit 3 5 480 800 (by decide) (by decide)
      (by decide) (by decide),
    processImage_output_dims_eq_target .crop 3 5 480 800 (by decide) (by decide)
      (by decide) (by decide),
    processImage_output_dims_eq_target .auto 3 5 480 800 (by decide) (by decide)
      (by decide) (by decide)⟩

/-- C4 counterexample: for a 1000 × 10000 source and a 480 × 800
target — the source larger than the target in *both* dimensions — the
crop branch bounds the image to 160 × 1600, crops to 160 × 800, and
therefore runs the final (width-upscaling) `resize`, refuting "can
happen only when the source is smaller than the target in some
dimension". -/
theorem crop_resize_with_large_source :
    (mkCropPlan 1000 10000 480 800).bounded = (160, 1600) ∧
    (mkCropPlan 1000 10000 480 800).cropped = (160, 800) ∧
    (mkCropPlan 1000 10000 480 800).needsResize = true ∧
    480 ≤ 1000 ∧ 800 ≤ 10000 ∧ 160 < 480 := by
  decide

/-- C4 (amended): for every source with positive dimensions and
positive target, (a) in Fit mode the resampled content never exceeds the
source's original pixel dimensions in either axis and also fits the
target box, with paste offset `((tw - sw) // 2, (th - sh) // 2)`
(floor division, both components nonnegative); (b) in Crop mode the
crop rectangle is `left = max(0, (w' - tw) // 2)`,
`top = max(0, (h' - th) // 2)`, `right = min(w', left + tw)`,
`bottom = min(h', top + th)` for the bounded size `(w', h')`, the
cropped size is `(min w' tw, min h' th)`, and the (possibly upscaling)
resize runs iff the *bounded* image — the source after the
`thumbnail((2*tw, 2*th))` step, not the source itself — is smaller than
the target in some dimension. -/
theorem placement_geometry_spec (w h tw th : ℕ)
    (hw : 0 < w) (hh : 0 < h) (htw : 0 < tw) (hth : 0 < th) :
    ((mkFitPlan w h tw th).scaled.1 ≤ w ∧ (mkFitPlan w h tw th).scaled.2 ≤ h) ∧
    ((mkFitPlan w h tw th).scaled.1 ≤ tw ∧ (mkFitPlan w h tw th).scaled.2 ≤ th) ∧
    ((mkFitPlan w h tw th).offset =
      (((tw : ℤ) - (mkFitPlan w h tw th).scaled.1).fdiv 2,
       ((th : ℤ) - (mkFitPlan w h tw th).scaled.2).fdiv 2) ∧
     0 ≤ (mkFitPlan w h tw th).offset.1 ∧ 0 ≤ (mkFitPlan w h tw th).offset.2) ∧
    ((mkCropPlan w h tw th).rect =
      (max 0 ((((mkCropPlan w h tw th).bounded.1 : ℤ) - tw).fdiv 2),
       max 0 ((((mkCropPlan w h tw th).bounded.2 : ℤ) - th).fdiv 2),
       min ((mkCropPlan w h tw th).bounded.1 : ℤ)
         (max 0 ((((mkCropPlan w h tw th).bounded.1 : ℤ) - tw).fdiv 2) + tw),
       min ((mkCropPlan w h tw th).bounded.2 : ℤ)
         (max 0 ((((mkCropPlan w h tw th).bounded.2 : ℤ) - th).fdiv 2) + th))) ∧
    ((mkCropPlan w h tw th).cropped =
      (min (mkCropPlan w h tw th).bounded.1 tw,
       min (mkCropPlan w h tw th).bounded.2 th)) ∧
    ((mkCropPlan w h tw th).needsResize = true ↔
      (mkCropPlan w h tw th).bounded.1 < tw ∨ (mkCropPlan w h tw th).bounded.2 < th) := by
  have hfit := thumbnailSize_le w h tw th hw hh htw hth
  have hcrop := thumbnailSize_le w h (tw * 2) (th * 2) hw hh (by omega) (by omega)
  have hcs := mkCropPlan_cropped w h tw th
  have hbnd : (mkCropPlan w h tw th).bounded = thumbnailSize w h (tw * 2) (th * 2) := by
    simp only [mkCropPlan]
  refine ⟨⟨?_, ?_⟩, ⟨?_, ?_⟩, ⟨?_, ?_, ?_⟩, ?_, ?_, ?_⟩
  · simpa only [mkFitPlan] using hfit.1
  · simpa only [mkFitPlan] using hfit.2.1
  · simpa only [mkFitPlan] using hfit.2.2.1
  · simpa only [mkFitPlan] using hfit.2.2.2
  · simp only [mkFitPlan]
  · have h1 : (mkFitPlan w h tw th).scaled.1 ≤ tw := by
      simpa only [mkFitPlan] using hfit.2.2.1
    simp only [mkFitPlan] at h1 ⊢
    rw [Int.fdiv_eq_ediv _ (by norm_num)]
    omega
  · have h2 : (mkFitPlan w h tw th).scaled.2 ≤ th := by
      simpa only [mkFitPlan] using hfit.2.2.2
    simp only [mkFitPlan] at h2 ⊢
    rw [Int.fdiv_eq_ediv _ (by norm_num)]
    omega
  · simp only [mkCropPlan]
  · exact hcs.trans (by rw [hbnd])
  · rw [hbnd]
    simp only [mkCropPlan]
    rcases thumbnailSize w h (tw * 2) (th * 2) with ⟨s1, s2⟩
    simp only [decide_eq_true_eq, ne_eq, Prod.mk.injEq, not_and_or]
    rw [Int.fdiv_eq_ediv _ (by norm_num), Int.fdiv_eq_ediv _ (by norm_num)]
    omega

/-- C4 witness: the amended geometry facts instantiated for a
1200 × 1200 source and 480 × 800 target (the spec's own fit example:
scaled to 480 × 480, pasted at offset (0, 160)). -/
theorem placement_geometry_spec_witness :
    (0 < 1200 ∧ 0 < 1200 ∧ 0 < 480 ∧ 0 < 800) ∧
    ((mkFitPlan 1200 1200 480 800).scaled.1 ≤ 1200 ∧
      (mkFitPlan 1200 1200 480 800).scaled.2 ≤ 1200) ∧
    (mkFitPlan 1200 1200 480 800).scaled = (480, 480) ∧
    (mkFitPlan 1200 1200 480 800).offset = (0, 160) ∧
    ((mkCropPlan 1200 1200 480 800).needsResize = true ↔
      (mkCropPlan 1200 1200 480 800).bounded.1 < 480 ∨
        (mkCropPlan 1200 1200 480 800).bounded.2 < 800) :=
  ⟨by decide,
    (placement_geometry_spec 1200 1200 480 800 (by decide) (by decide)
      (by decide) (by decide)).1,
    by decide, by decide,
    (placement_geometry_spec 1200 1200 480 800 (by decide) (by decide)
      (by decide) (by decide)).2.2.2.2.2⟩

/-! ### Claims about the color-model normalization -/

/-- C2 counterexample: a 1-pixel `LA` image whose single pixel is fully
transparent (gray 7, alpha 0) flattened over background (1, 2, 3): the
code pastes it with `mask=None`, so the pixel stays gray (7, 7, 7)
instead of becoming the background color as the claim demands. -/
theorem la_transparent_pixel_keeps_gray :
    normalizeColor ⟨1, 2, 3⟩ (.la [⟨7, 0⟩]) = [⟨7, 7, 7⟩] ∧
    (⟨7, 7, 7⟩ : Px3) ≠ ⟨1, 2, 3⟩ := by
  decide

/-- C2 (amended): for `RGBA` images, and for `P` images — which are
first expanded through their palette to `RGBA` — the decoder flattens
onto the background through the alpha mask: fully transparent pixels
become exactly the background color, fully opaque pixels keep the source
color, and partial alpha blends source over background per channel
(Pillow's fixed-point `BLEND`).  For `LA` images, however, the paste is
performed with `mask=None`: the alpha channel is ignored and every
pixel becomes its gray value replicated across channels.  In all cases
the flattened buffer has the image's native size. -/
theorem flatten_color_model_spec :
    (∀ (bg : Px3) (p : Px4),
      pasteRGBAPixel bg p =
        ⟨blendChan p.a p.r bg.r, blendChan p.a p.g bg.g, blendChan p.a p.b bg.b⟩) ∧
    (∀ (bg : Px3) (p : Px4), p.r ≤ 255 → p.g ≤ 255 → p.b ≤ 255 →
      bg.r ≤ 255 → bg.g ≤ 255 → bg.b ≤ 255 →
      (p.a = 0 → pasteRGBAPixel bg p = bg) ∧
      (p.a = 255 → pasteRGBAPixel bg p = ⟨p.r, p.g, p.b⟩)) ∧
    (∀ (bg : Px3) (palette : ℕ → Px4) (idx : List ℕ),
      normalizeColor bg (.pal palette idx) = (idx.map palette).map (pasteRGBAPixel bg)) ∧
    (∀ (bg : Px3) (px : List Px2),
      normalizeColor bg (.la px) = px.map (fun p => ⟨p.l, p.l, p.l⟩)) ∧
    (∀ (bg : Px3) (d : Decoded), (normalizeColor bg d).length = d.numPixels) := by
  refine ⟨fun bg p => rfl, ?_, fun bg palette idx => rfl, fun bg px => rfl, ?_⟩
  · intro bg p hr hg hb hbr hbg hbb
    constructor
    · intro ha
      simp only [pasteRGBAPixel, blendChan, ha, Nat.sub_zero, muldiv255_zero,
        muldiv255_255 _ hbr, muldiv255_255 _ hbg, muldiv255_255 _ hbb, Nat.add_zero]
    · intro ha
      simp only [pasteRGBAPixel, blendChan, ha, Nat.sub_self, muldiv255_zero,
        muldiv255_255 _ hr, muldiv255_255 _ hg, muldiv255_255 _ hb, Nat.zero_add]
  · intro bg d
    cases d <;> simp [normalizeColor, Decoded.numPixels]

/-- C2 witness: a fully transparent RGBA pixel flattens to the
background, a fully opaque one keeps its color, and the LA rule applied
to a concrete two-pixel image. -/
theorem flatten_color_model_spec_witness :
    ((10 : ℕ) ≤ 255 ∧ (20 : ℕ) ≤ 255 ∧ (30 : ℕ) ≤ 255 ∧
      (1 : ℕ) ≤ 255 ∧ (2 : ℕ) ≤ 255 ∧ (3 : ℕ) ≤ 255) ∧
    (pasteRGBAPixel ⟨1, 2, 3⟩ ⟨10, 20, 30, 0⟩ = ⟨1, 2, 3⟩) ∧
    (pasteRGBAPixel ⟨1, 2, 3⟩ ⟨10, 20, 30, 255⟩ = ⟨10, 20, 30⟩) ∧
    normalizeColor ⟨1, 2, 3⟩ (.la [⟨7, 0⟩, ⟨9, 255⟩]) = [⟨7, 7, 7⟩, ⟨9, 9, 9⟩] :=
  ⟨by decide,
    (flatten_color_model_spec.2.1 ⟨1, 2, 3⟩ ⟨10, 20, 30, 0⟩ (by decide) (by decide)
      (by decide) (by decide) (by decide) (by decide)).1 rfl,
    (flatten_color_model_spec.2.1 ⟨1, 2, 3⟩ ⟨10, 20, 30, 255⟩ (by decide) (by decide)
      (by decide) (by decide) (by decide) (by decide)).2 rfl,
    flatten_color_model_spec.2.2.2.1 ⟨1, 2, 3⟩ [⟨7, 0⟩, ⟨9, 255⟩]⟩

/-! ### Claim about auto mode -/

/-- C3 counterexample: a 600 × 500 source against a square 480 × 480
target has exact ratios 6/5 and 1, relative difference exactly 1/5,
which is not `< 1/5`, so the claim's exact 0.2-threshold rule selects
fit; but converter.py line 122 evaluates the test in binary64, where
`600/500` rounds to a double just below 6/5 and
`abs(1.2 - 1.0) / 1.0 = 0.19999999999999996 < 0.2`, so the program
resolves auto to crop. -/
theorem autoMode_float_boundary :
    ratioCondFloat 600 500 480 480 = true ∧
    ¬ ratioCondExact 600 500 480 480 ∧
    actualCropMode .auto 600 500 480 480 = .crop :=
  ⟨by decide, by norm_num [ratioCondExact, abs], by decide⟩

/-- C3 (amended): auto mode resolves by the float-evaluated threshold
test of line 122 (`ratioCondFloat`): crop placement when the binary64
value of `abs(w/h - tw/th) / (tw/th)` compares below the double
nearest 0.2, fit placement otherwise; the choice is a deterministic
function of the two exact ratios (equal ratios give equal floats give
the same mode), but it is the float test, not the exact 0.2 rule,
that decides (they differ at rounding boundaries, see
`autoMode_float_boundary`). -/
theorem autoMode_threshold_spec (w h tw th : ℕ)
    (hw : 0 < w) (hh : 0 < h) (htw : 0 < tw) (hth : 0 < th) :
    (ratioCondFloat w h tw th = true →
      compositePlan .auto w h tw th = compositePlan .crop w h tw th) ∧
    (ratioCondFloat w h tw th = false →
      compositePlan .auto w h tw th = compositePlan .fit w h tw th) ∧
    (∀ (w' h' tw' th' : ℕ), 0 < h' → 0 < th' →
      (w : ℚ) / (h : ℚ) = (w' : ℚ) / (h' : ℚ) →
      (tw : ℚ) / (th : ℚ) = (tw' : ℚ) / (th' : ℚ) →
      actualCropMode .auto w h tw th = actualCropMode .auto w' h' tw' th') := by
  refine ⟨?_, ?_, ?_⟩
  · intro hc
    simp only [compositePlan, actualCropMode, hc, if_true]
  · intro hc
    simp only [compositePlan, actualCropMode, hc, Bool.false_eq_true, if_false]
  · intro w' h' tw' th' hh' hth' hr ht
    have e1 : roundIntRat (w : ℤ) h = roundIntRat (w' : ℤ) h' :=
      roundIntRat_congr hh hh' (by push_cast; exact hr)
    have e2 : roundIntRat (tw : ℤ) th = roundIntRat (tw' : ℤ) th' :=
      roundIntRat_congr hth hth' (by push_cast; exact ht)
    simp only [actualCropMode, ratioCondFloat, e1, e2]

/-- C3 witness: a square 100 × 100 source against a 480 × 800 target
(float test false) resolves to fit; a 600 × 1000 source (equal ratios,
float test true) resolves to crop; and a 1200 × 2000 source, having
the same exact ratio as 600 × 1000, resolves identically. -/
theorem autoMode_threshold_spec_witness :
    ((0 : ℕ) < 100 ∧ (0 : ℕ) < 480 ∧ (0 : ℕ) < 800 ∧
      ratioCondFloat 100 100 480 800 = false ∧
      ratioCondFloat 600 1000 480 800 = true) ∧
    compositePlan .auto 100 100 480 800 = compositePlan .fit 100 100 480 800 ∧
    compositePlan .auto 600 1000 480 800 = compositePlan .crop 600 1000 480 800 ∧
    actualCropMode .auto 600 1000 480 800
      = actualCropMode .auto 1200 2000 480 800 :=
  ⟨⟨by decide, by decide, by decide, by decide, by decide⟩,
    (autoMode_threshold_spec 100 100 480 800 (by decide) (by decide) (by decide)
      (by decide)).2.1 (by decide),
    (autoMode_threshold_spec 600 1000 480 800 (by decide) (by decide) (by decide)
      (by decide)).1 (by decide),
    (autoMode_threshold_spec 600 1000 480 800 (by decide) (by decide) (by decide)
      (by decide)).2.2 1200 2000 480 800 (by decide) (by decide) (by norm_num)
      (by norm_num)⟩

/-! ### Orchestrator lemmas -/

theorem handleJob_of_skip {ow : Bool} {procR : String → Except String (Bool × ℕ)}
    {total i : ℕ} {f : String} {st : St}
    (hc : (st.fs (outputName f)).isSome ∧ ow = false) :
    handleJob ow procR total i f st =
      { st with
          skipped := st.skipped + 1
          events := st.events ++ [.processingFile f, .log (.skip f),
            .progress (progressValue i total)] } := by
  simp only [handleJob, emit]
  rw [if_pos hc]
  simp [List.append_assoc]

theorem handleJob_of_ok {ow : Bool} {procR : String → Except String (Bool × ℕ)}
    {total i : ℕ} {f : String} {st : St} {n : ℕ}
    (hc : ¬ ((st.fs (outputName f)).isSome ∧ ow = false))
    (hp : procR f = .ok (true, n)) :
    handleJob ow procR total i f st =
      { st with
          processed := st.processed + 1
          fs := fun x => if x = outputName f then some n else st.fs x
          events := st.events ++ [.processingFile f, .log (.ok f),
            .progress (progressValue i total)] } := by
  simp only [handleJob, emit]
  rw [if_neg hc, hp]
  simp [List.append_assoc]

theorem handleJob_of_falsy {ow : Bool} {procR : String → Except String (Bool × ℕ)}
    {total i : ℕ} {f : String} {st : St} {n : ℕ}
    (hc : ¬ ((st.fs (outputName f)).isSome ∧ ow = false))
    (hp : procR f = .ok (false, n)) :
    handleJob ow procR total i f st =
      { st with
          failed := st.failed + 1
          events := st.events ++ [.processingFile f, .log (.failed f),
            .progress (progressValue i total)] } := by
  simp only [handleJob, emit]
  rw [if_neg hc, hp]
  simp [List.append_assoc]

theorem handleJob_of_raise {ow : Bool} {procR : String → Except String (Bool × ℕ)}
    {total i : ℕ} {f : String} {st : St} {e : String}
    (hc : ¬ ((st.fs (outputName f)).isSome ∧ ow = false))
    (hp : procR f = .error e) :
    handleJob ow procR total i f st =
      { st with
          failed := st.failed + 1
          events := st.events ++ [.processingFile f, .log (.err f e),
            .progress (progressValue i total)] } := by
  simp only [handleJob, emit]
  rw [if_neg hc, hp]
  simp [List.append_assoc]

/-- Every loop body appends `processing_file`, one log message about its
own file, and one progress event. -/
theorem handleJob_events_shape (ow : Bool) (procR : String → Except String (Bool × ℕ))
    (total i : ℕ) (f : String) (st : St) :
    ∃ m : LogMsg, (handleJob ow procR total i f st).events =
      st.events ++ [.processingFile f, .log m, .progress (progressValue i total)] ∧
      (m = .skip f ∨ m = .ok f ∨ m = .failed f ∨ ∃ e, m = .err f e) := by
  by_cases hc : (st.fs (outputName f)).isSome ∧ ow = false
  · exact ⟨.skip f, by rw [handleJob_of_skip hc], Or.inl rfl⟩
  · rcases hp : procR f with e | ⟨b, n⟩
    · exact ⟨.err f e, by rw [handleJob_of_raise hc hp], Or.inr (Or.inr (Or.inr ⟨e, rfl⟩))⟩
    · cases b
      · exact ⟨.failed f, by rw [handleJob_of_falsy hc hp], Or.inr (Or.inr (Or.inl rfl))⟩
      · exact ⟨.ok f, by rw [handleJob_of_ok hc hp], Or.inr (Or.inl rfl)⟩

/-- One loop body moves exactly one counter up by one. -/
theorem handleJob_one_counter (ow : Bool) (procR : String → Except String (Bool × ℕ))
    (total i : ℕ) (f : String) (st : St) :
    ((handleJob ow procR total i f st).processed = st.processed + 1 ∧
      (handleJob ow procR total i f st).skipped = st.skipped ∧
      (handleJob ow procR total i f st).failed = st.failed) ∨
    ((handleJob ow procR total i f st).processed = st.processed ∧
      (handleJob ow procR total i f st).skipped = st.skipped + 1 ∧
      (handleJob ow procR total i f st).failed = st.failed) ∨
    ((handleJob ow procR total i f st).processed = st.processed ∧
      (handleJob ow procR total i f st).skipped = st.skipped ∧
      (handleJob ow procR total i f st).failed = st.failed + 1) := by
  by_cases hc : (st.fs (outputName f)).isSome ∧ ow = false
  · rw [handleJob_of_skip hc]
    exact Or.inr (Or.inl ⟨rfl, rfl, rfl⟩)
  · rcases hp : procR f with e | ⟨b, n⟩
    · rw [handleJob_of_raise hc hp]
      exact Or.inr (Or.inr ⟨rfl, rfl, rfl⟩)
    · cases b
      · rw [handleJob_of_falsy hc hp]
        exact Or.inr (Or.inr ⟨rfl, rfl, rfl⟩)
      · rw [handleJob_of_ok hc hp]
        exact Or.inl ⟨rfl, rfl, rfl⟩

theorem range_succ_shift {α : Type} (g : ℕ → α) (n : ℕ) :
    (List.range (n + 1)).map g = g 0 :: (List.range n).map (fun j => g (j + 1)) := by
  rw [List.range_succ_eq_map]
  simp [List.map_map, Function.comp]

/-- Event-stream shape of the cancellation-free fold: old events are
kept in place, appended events carry the right progress values, are
never terminal signals, and mention only files of the job list. -/
theorem foldJobs_events (ow : Bool) (procR : String → Except String (Bool × ℕ))
    (total : ℕ) :
    ∀ (L : List String) (i : ℕ) (st : St), ∃ T : List Ev,
      (foldJobs ow procR total L i st).events = st.events ++ T ∧
      T.filterMap Ev.progVal =
        (List.range L.length).map (fun j => progressValue (i + j) total) ∧
      (∀ e ∈ T, (∀ a b c, e ≠ .finished a b c) ∧ (∀ s, e ≠ .errorOccurred s) ∧
        (∀ f, e = .processingFile f → f ∈ L) ∧
        (∀ f, e = .log (.skip f) → f ∈ L) ∧ (∀ f, e = .log (.ok f) → f ∈ L) ∧
        (∀ f, e = .log (.failed f) → f ∈ L) ∧
        (∀ f s, e = .log (.err f s) → f ∈ L)) := by
  intro L
  induction L with
  | nil => exact fun i st => ⟨[], by simp [foldJobs]⟩
  | cons f rest ih => ?_
  intro i st
  obtain ⟨m, hev, hm⟩ := handleJob_events_shape ow procR total i f st
  obtain ⟨T, hT, hTprog, hTmem⟩ := ih (i + 1) (handleJob ow procR total i f st)
  refine ⟨[.processingFile f, .log m, .progress (progressValue i total)] ++ T,
    ?_, ?_, ?_⟩
  · rw [foldJobs, hT, hev, List.append_assoc]
  · have hshift : T.filterMap Ev.progVal =
        (List.range rest.length).map (fun j => progressValue (i + (j + 1)) total) := by
      rw [hTprog]
      refine List.map_congr_left ?_
      intro a _
      have harith : i + 1 + a = i + (a + 1) := by omega
      rw [harith]
    rw [List.filterMap_append, hshift, List.length_cons, range_succ_shift]
    simp only [List.filterMap_cons, Ev.progVal, List.filterMap_nil,
      List.singleton_append, List.nil_append, Nat.add_zero]
  · intro e he
    rcases List.mem_append.mp he with h3 | hT3
    · simp only [List.mem_cons, List.mem_singleton, List.not_mem_nil, or_false] at h3
      rcases h3 with h3 | h3 | h3
      · subst h3
        refine ⟨nofun, nofun, ?_, nofun, nofun, nofun, nofun⟩
        intro g hg
        cases hg
        exact List.mem_cons_self f rest
      · subst h3
        refine ⟨nofun, nofun, nofun, ?_, ?_, ?_, ?_⟩
        · intro g hg
          cases hg
          rcases hm with hm | hm | hm | ⟨s, hm⟩ <;> cases hm <;>
            exact List.mem_cons_self f rest
        · intro g hg
          cases hg
          rcases hm with hm | hm | hm | ⟨s, hm⟩ <;> cases hm <;>
            exact List.mem_cons_self f rest
        · intro g hg
          cases hg
          rcases hm with hm | hm | hm | ⟨s, hm⟩ <;> cases hm <;>
            exact List.mem_cons_self f rest
        · intro g s' hg
          cases hg
          rcases hm with hm | hm | hm | ⟨s, hm⟩ <;> cases hm <;>
            exact List.mem_cons_self f rest
      · subst h3
        exact ⟨nofun, nofun, nofun, nofun, nofun, nofun, nofun⟩
    · obtain ⟨hf1, hf2, hf3, hf4, hf5, hf6, hf7⟩ := hTmem e hT3
      exact ⟨hf1, hf2, fun g hg => List.mem_cons_of_mem f (hf3 g hg),
        fun g hg => List.mem_cons_of_mem f (hf4 g hg),
        fun g hg => List.mem_cons_of_mem f (hf5 g hg),
        fun g hg => List.mem_cons_of_mem f (hf6 g hg),
        fun g s hg => List.mem_cons_of_mem f (hf7 g s hg)⟩

/-- Events already emitted stay in the stream. -/
theorem foldJobs_events_mono (ow : Bool) (procR : String → Except String (Bool × ℕ))
    (total : ℕ) (L : List String) (i : ℕ) (st : St) (e : Ev)
    (he : e ∈ st.events) : e ∈ (foldJobs ow procR total L i st).events := by
  obtain ⟨T, hT, -, -⟩ := foldJobs_events ow procR total L i st
  rw [hT]
  exact List.mem_append_left T he

/-- Whether `run` records a job as processed: `process_image` returned a
truthy value (its only non-raising return is `True`). -/
def jobOk (procR : String → Except String (Bool × ℕ)) (f : String) : Bool :=
  match procR f with
  | .ok (true, _) => true
  | _ => false

/-- With overwrite on (no job can be skipped), the fold counts exactly
the truthy results as processed and everything else as failed. -/
theorem foldJobs_counts (procR : String → Except String (Bool × ℕ))
    (total : ℕ) (L : List String) :
    ∀ (i : ℕ) (st : St),
      (foldJobs true procR total L i st).processed
        = st.processed + L.countP (jobOk procR) ∧
      (foldJobs true procR total L i st).skipped = st.skipped ∧
      (foldJobs true procR total L i st).failed
        = st.failed + L.countP (fun f => ! jobOk procR f) := by
  induction L with
  | nil => intro i st; simp [foldJobs]
  | cons f rest ih => ?_
  intro i st
  have hc : ¬ ((st.fs (outputName f)).isSome ∧ (true : Bool) = false) := by simp
  have hcons : foldJobs true procR total (f :: rest) i st =
      foldJobs true procR total rest (i + 1) (handleJob true procR total i f st) := rfl
  rcases hp : procR f with e | ⟨b, n⟩
  · have hjob : jobOk procR f = false := by simp [jobOk, hp]
    obtain ⟨h1, h2, h3⟩ := ih (i + 1) (handleJob true procR total i f st)
    rw [hcons, h1, h2, h3, handleJob_of_raise hc hp]
    simp [List.countP_cons, hjob]
    omega
  · cases b
    · have hjob : jobOk procR f = false := by simp [jobOk, hp]
      obtain ⟨h1, h2, h3⟩ := ih (i + 1) (handleJob true procR total i f st)
      rw [hcons, h1, h2, h3, handleJob_of_falsy hc hp]
      simp [List.countP_cons, hjob]
      omega
    · have hjob : jobOk procR f = true := by simp [jobOk, hp]
      obtain ⟨h1, h2, h3⟩ := ih (i + 1) (handleJob true procR total i f st)
      rw [hcons, h1, h2, h3, handleJob_of_ok hc hp]
      simp [List.countP_cons, hjob]
      omega

/-- Every handled job moves the counter total up by exactly one. -/
theorem foldJobs_counter_total (ow : Bool) (procR : String → Except String (Bool × ℕ))
    (total : ℕ) (L : List String) :
    ∀ (i : ℕ) (st : St),
      (foldJobs ow procR total L i st).processed + (foldJobs ow procR total L i st).skipped
          + (foldJobs ow procR total L i st).failed
        = st.processed + st.skipped + st.failed + L.length := by
  induction L with
  | nil => intro i st; simp [foldJobs]
  | cons f rest ih => ?_
  intro i st
  have hcons : foldJobs ow procR total (f :: rest) i st =
      foldJobs ow procR total rest (i + 1) (handleJob ow procR total i f st) := rfl
  have hstep := handleJob_one_counter ow procR total i f st
  have hrest := ih (i + 1) (handleJob ow procR total i f st)
  rw [hcons, hrest]
  rcases hstep with ⟨h1, h2, h3⟩ | ⟨h1, h2, h3⟩ | ⟨h1, h2, h3⟩ <;>
    rw [h1, h2, h3] <;> simp [List.length_cons] <;> omega

/-- With overwrite on, a raising job leaves its error log in the
stream and a truthy job leaves its success log. -/
theorem foldJobs_log_mem (procR : String → Except String (Bool × ℕ))
    (total : ℕ) (L : List String) :
    ∀ (i : ℕ) (st : St) (f : String), f ∈ L →
      (∀ e, procR f = .error e →
        Ev.log (.err f e) ∈ (foldJobs true procR total L i st).events) ∧
      (∀ n, procR f = .ok (true, n) →
        Ev.log (.ok f) ∈ (foldJobs true procR total L i st).events) := by
  induction L with
  | nil => intro i st f hf; cases hf
  | cons g rest ih => ?_
  intro i st f hf
  have hc : ∀ st' : St, ¬ ((st'.fs (outputName g)).isSome ∧ (true : Bool) = false) := by
    simp
  have hcons : foldJobs true procR total (g :: rest) i st =
      foldJobs true procR total rest (i + 1) (handleJob true procR total i g st) := rfl
  rcases List.mem_cons.mp hf with rfl | hmem
  · constructor
    · intro e hp
      rw [hcons]
      refine foldJobs_events_mono true procR total rest (i + 1) _ _ ?_
      rw [handleJob_of_raise (hc st) hp]
      simp
    · intro n hp
      rw [hcons]
      refine foldJobs_events_mono true procR total rest (i + 1) _ _ ?_
      rw [handleJob_of_ok (hc st) hp]
      simp
  · rw [hcons]
    exact ih (i + 1) (handleJob true procR total i g st) f hmem

/-- When every `self.running` read is `True` the loop is exactly the
cancellation-free fold, and the final read has index `i + |L|`. -/
theorem jobLoop_all_true (ow : Bool) (procR : String → Except String (Bool × ℕ))
    (obs : ℕ → Bool) (total : ℕ) (hobs : ∀ j, obs j = true) (L : List String) :
    ∀ (i : ℕ) (st : St),
      jobLoop ow procR obs total L i st = (foldJobs ow procR total L i st, i + L.length) := by
  induction L with
  | nil => intro i st; simp [jobLoop, foldJobs]
  | cons f rest ih => ?_
  intro i st
  have : jobLoop ow procR obs total (f :: rest) i st =
      jobLoop ow procR obs total rest (i + 1) (handleJob ow procR total i f st) := by
    rw [jobLoop, if_pos (hobs i)]
  rw [this, ih (i + 1) (handleJob ow procR total i f st)]
  have : foldJobs ow procR total (f :: rest) i st =
      foldJobs ow procR total rest (i + 1) (handleJob ow procR total i f st) := rfl
  rw [this, Prod.mk.injEq]
  exact ⟨rfl, by simp; omega⟩

/-- If `self.running` turns (and stays) `False` at the `k`-th read with
every earlier read `True`, the loop handles exactly the first `k` jobs
and the read `run` performs before `finished_success` is also `False`. -/
theorem jobLoop_cancel (ow : Bool) (procR : String → Except String (Bool × ℕ))
    (obs : ℕ → Bool) (total : ℕ)
    (hmono : ∀ j, obs j = false → obs (j + 1) = false) (L : List String) :
    ∀ (i k : ℕ) (st : St), k ≤ L.length → obs (i + k) = false →
      (∀ j, j < k → obs (i + j) = true) →
      ∃ r, jobLoop ow procR obs total L i st =
        (foldJobs ow procR total (L.take k) i st, r) ∧ obs r = false := by
  induction L with
  | nil =>
    intro i k st hk hkf _
    have hk0 : k = 0 := Nat.le_zero.mp hk
    subst hk0
    exact ⟨i, by simp [jobLoop, foldJobs], by simpa using hkf⟩
  | cons f rest ih => ?_
  intro i k st hk hkf hbefore
  cases k with
  | zero =>
    have hi : obs i = false := by simpa using hkf
    refine ⟨i + 1, ?_, hmono i hi⟩
    rw [jobLoop, if_neg (by simp [hi])]
    simp [foldJobs]
  | succ k =>
    have hi : obs i = true := by simpa using hbefore 0 (Nat.succ_pos k)
    have hstep : jobLoop ow procR obs total (f :: rest) i st =
        jobLoop ow procR obs total rest (i + 1) (handleJob ow procR total i f st) := by
      rw [jobLoop, if_pos hi]
    have htake : (f :: rest).take (k + 1) = f :: rest.take k := rfl
    have hfold : foldJobs ow procR total (f :: rest.take k) i st =
        foldJobs ow procR total (rest.take k) (i + 1) (handleJob ow procR total i f st) := rfl
    obtain ⟨r, hr, hrf⟩ := ih (i + 1) k (handleJob ow procR total i f st)
      (by simpa using hk) (by rw [show i + 1 + k = i + (k + 1) by omega]; exact hkf)
      (fun j hj => by
        rw [show i + 1 + j = i + (j + 1) by omega]
        exact hbefore (j + 1) (by omega))
    exact ⟨r, by rw [hstep, htake, hfold, hr], hrf⟩

/-- With the code's actual `process_image` — which returns `True` on
every non-raising path — the loop body can never log `Failed:`. -/
theorem handleJob_ret_no_failed (ow : Bool) (dec : String → Except String ℕ)
    (total i : ℕ) (f g : String) (st : St)
    (hmem : Ev.log (.failed g) ∈ (handleJob ow (processImageRet dec) total i f st).events) :
    Ev.log (.failed g) ∈ st.events := by
  by_cases hc : (st.fs (outputName f)).isSome ∧ ow = false
  · rw [handleJob_of_skip hc] at hmem
    rcases List.mem_append.mp hmem with h | h
    · exact h
    · simp at h
  · rcases hd : dec f with e | n
    · have hp : processImageRet dec f = .error e := by
        simp [processImageRet, hd, Except.map]
      rw [handleJob_of_raise hc hp] at hmem
      rcases List.mem_append.mp hmem with h | h
      · exact h
      · simp at h
    · have hp : processImageRet dec f = .ok (true, n) := by
        simp [processImageRet, hd, Except.map]
      rw [handleJob_of_ok hc hp] at hmem
      rcases List.mem_append.mp hmem with h | h
      · exact h
      · simp at h

/-- `jobLoop` version of `handleJob_ret_no_failed`. -/
theorem jobLoop_ret_no_failed (ow : Bool) (dec : String → Except String ℕ)
    (obs : ℕ → Bool) (total : ℕ) (L : List String) :
    ∀ (i : ℕ) (st : St) (g : String),
      Ev.log (.failed g) ∈ (jobLoop ow (processImageRet dec) obs total L i st).1.events →
      Ev.log (.failed g) ∈ st.events := by
  induction L with
  | nil => intro i st g h; simpa [jobLoop] using h
  | cons f rest ih => ?_
  intro i st g h
  rw [jobLoop] at h
  by_cases hi : obs i
  · rw [if_pos hi] at h
    exact handleJob_ret_no_failed ow dec total i f g st
      (ih (i + 1) (handleJob ow (processImageRet dec) total i f st) g h)
  · rw [if_neg hi] at h
    exact h

/-! ### Claims about `ImageProcessor.run` -/

/-- C9: if the input directory does not exist, or if filtering the
directory entries by extension yields no file, `run` emits exactly one
fatal `error_occurred` event and stops: no counters event, no progress,
no decode/encode work (the resulting state does not depend on the
process oracle and leaves counters and the output directory as they
started). -/
theorem run_enumeration_fatal_spec (cfg : Config) (inp : RunInput) :
    (inp.dirExists = false →
      ImageProcessor.run cfg inp =
        { initSt inp with
            events := [.errorOccurred ("Input directory does not exist: " ++ cfg.inputDir)] }) ∧
    (inp.dirExists = true → imageFiles cfg inp = [] →
      ImageProcessor.run cfg inp =
        { initSt inp with
            events := [.errorOccurred ("No supported images found in: " ++ cfg.inputDir)] }) := by
  constructor
  · intro hd
    rw [ImageProcessor.run, if_pos hd]
    simp [emit, initSt]
  · intro hd hfiles
    rw [ImageProcessor.run, if_neg (by simp [hd])]
    simp only [hfiles, if_pos rfl]
    simp [emit, initSt]

/-- C9 witness: a run over a missing directory, and a run over an
existing directory holding a single `.txt` file, each produce exactly
the fatal event. -/
theorem run_enumeration_fatal_spec_witness :
    ((false = false) ∧
      ImageProcessor.run ⟨"in", false, false, false⟩
          ⟨false, [], fun _ => none, fun _ => .error "?", fun _ => true⟩ =
        { initSt ⟨false, [], fun _ => none, fun _ => .error "?", fun _ => true⟩ with
            events := [.errorOccurred ("Input directory does not exist: " ++ "in")] }) ∧
    ((true = true) ∧
      imageFiles ⟨"in", false, false, false⟩
          ⟨true, ["notes.txt"], fun _ => none, fun _ => .error "?", fun _ => true⟩ = [] ∧
      ImageProcessor.run ⟨"in", false, false, false⟩
          ⟨true, ["notes.txt"], fun _ => none, fun _ => .error "?", fun _ => true⟩ =
        { initSt ⟨true, ["notes.txt"], fun _ => none, fun _ => .error "?", fun _ => true⟩ with
            events := [.errorOccurred ("No supported images found in: " ++ "in")] }) :=
  ⟨⟨rfl, (run_enumeration_fatal_spec ⟨"in", false, false, false⟩
      ⟨false, [], fun _ => none, fun _ => .error "?", fun _ => true⟩).1 rfl⟩,
    ⟨rfl, by decide,
      (run_enumeration_fatal_spec ⟨"in", false, false, false⟩
        ⟨true, ["notes.txt"], fun _ => none, fun _ => .error "?", fun _ => true⟩).2 rfl
        (by decide)⟩⟩

/-- C6: for a job whose output path already exists while overwrite is
off, the loop body does no decode/composite/encode work (its result is
the same for every process oracle), increments `skipped` by exactly 1,
leaves the other counters and the whole output directory — in
particular the existing file — untouched, and emits the skip log. -/
theorem skip_policy_spec (ow : Bool) (procR procR' : String → Except String (Bool × ℕ))
    (total i : ℕ) (f : String) (st : St)
    (hex : (st.fs (outputName f)).isSome) (how : ow = false) :
    handleJob ow procR total i f st = handleJob ow procR' total i f st ∧
    (handleJob ow procR total i f st).skipped = st.skipped + 1 ∧
    (handleJob ow procR total i f st).processed = st.processed ∧
    (handleJob ow procR total i f st).failed = st.failed ∧
    (handleJob ow procR total i f st).fs = st.fs ∧
    (handleJob ow procR total i f st).events =
      st.events ++ [.processingFile f, .log (.skip f),
        .progress (progressValue i total)] := by
  rw [handleJob_of_skip ⟨hex, how⟩, @handleJob_of_skip ow procR' total i f st ⟨hex, how⟩]
  exact ⟨rfl, rfl, rfl, rfl, rfl, rfl⟩

/-- C6 witness: skipping `photo.png` whose `photo.jpg` output already
exists, with two process oracles that disagree everywhere. -/
theorem skip_policy_spec_witness :
    (((⟨0, 0, 0, [], fun n => if n = "photo.jpg" then some 7 else none⟩ : St).fs
        (outputName "photo.png")).isSome ∧ (false : Bool) = false) ∧
    (handleJob false (fun _ => .error "boom") 3 0 "photo.png"
        ⟨0, 0, 0, [], fun n => if n = "photo.jpg" then some 7 else none⟩ =
      handleJob false (fun _ => .ok (true, 9)) 3 0 "photo.png"
        ⟨0, 0, 0, [], fun n => if n = "photo.jpg" then some 7 else none⟩) ∧
    (handleJob false (fun _ => .error "boom") 3 0 "photo.png"
        ⟨0, 0, 0, [], fun n => if n = "photo.jpg" then some 7 else none⟩).skipped = 0 + 1 :=
  ⟨⟨by decide, rfl⟩,
    (skip_policy_spec false (fun _ => .error "boom") (fun _ => .ok (true, 9)) 3 0
      "photo.png" ⟨0, 0, 0, [], fun n => if n = "photo.jpg" then some 7 else none⟩
      (by decide) rfl).1,
    (skip_policy_spec false (fun _ => .error "boom") (fun _ => .ok (true, 9)) 3 0
      "photo.png" ⟨0, 0, 0, [], fun n => if n = "photo.jpg" then some 7 else none⟩
      (by decide) rfl).2.1⟩

/-- The loop call inside `run` (converter.py 179-209), named for reuse. -/
def runLoopResult (cfg : Config) (inp : RunInput) : St × ℕ :=
  jobLoop cfg.overwrite inp.procR inp.obs (imageFiles cfg inp).length
    (imageFiles cfg inp) 0 (initSt inp)

/-- `run` on an existing directory with a nonempty job list is the loop
followed by the guarded `finished_success` emission. -/
theorem run_main_eq (cfg : Config) (inp : RunInput)
    (hdir : inp.dirExists = true) (hne : imageFiles cfg inp ≠ []) :
    ImageProcessor.run cfg inp =
      (if inp.obs (runLoopResult cfg inp).2 then
        emit (runLoopResult cfg inp).1
          (.finished (runLoopResult cfg inp).1.processed
            (runLoopResult cfg inp).1.skipped (runLoopResult cfg inp).1.failed)
      else (runLoopResult cfg inp).1) := by
  rw [ImageProcessor.run, if_neg (by simp [hdir])]
  simp only []
  rw [if_neg hne]
  rfl

theorem initSt_events (inp : RunInput) : (initSt inp).events = [] := rfl

/-- C8 counterexample: with 100 jobs, after job index 28 the program
computes `int(29/100*100)` in binary64 (converter.py line 208), which
is 28 — not the exact `floor(29/100*100) = 29` the claim states —
because `29/100` rounds to a double just below 29/100; the loop body
accordingly emits progress 28, never 29, for that job.  And with
`2^54 + 2` jobs the program emits 100 already at index `2^54` although
a later job remains, so "100 only after the last job" also fails for
huge totals. -/
theorem run_progress_off_by_one :
    progressValue 28 100 = 28 ∧ (28 + 1) * 100 / 100 = 29 ∧
    Ev.progress 28 ∈ (handleJob true (fun _ => .ok (true, 1)) 100 28 "a.png"
      ⟨0, 0, 0, [], fun _ => none⟩).events ∧
    Ev.progress 29 ∉ (handleJob true (fun _ => .ok (true, 1)) 100 28 "a.png"
      ⟨0, 0, 0, [], fun _ => none⟩).events ∧
    progressValue (2 ^ 54) (2 ^ 54 + 2) = 100 ∧ 2 ^ 54 + 1 < 2 ^ 54 + 2 :=
  ⟨by decide, by decide, by decide, by decide, by decide, by decide⟩

/-- C8 (amended): absent cancellation, the run emits one progress
value per handled job, in job order, equal to the binary64 evaluation
of `int((index+1)/total*100)` (line 208; `progressValue`, which can
fall one below the exact floor — see `run_progress_off_by_one`); the
emitted sequence is monotonically non-decreasing, the last job always
emits exactly 100, and whenever the run has at most `2^53` jobs no
earlier job emits 100. -/
theorem run_progress_spec (cfg : Config) (inp : RunInput)
    (hdir : inp.dirExists = true) (hne : imageFiles cfg inp ≠ [])
    (hobs : ∀ j, inp.obs j = true) :
    (ImageProcessor.run cfg inp).events.filterMap Ev.progVal =
      (List.range (imageFiles cfg inp).length).map
        (fun j => progressValue j (imageFiles cfg inp).length) ∧
    (∀ j k : ℕ, j ≤ k →
      progressValue j (imageFiles cfg inp).length
        ≤ progressValue k (imageFiles cfg inp).length) ∧
    progressValue ((imageFiles cfg inp).length - 1)
      (imageFiles cfg inp).length = 100 ∧
    ((imageFiles cfg inp).length ≤ 2 ^ 53 →
      ∀ j : ℕ, j + 1 < (imageFiles cfg inp).length →
        progressValue j (imageFiles cfg inp).length < 100) := by
  have hlen : 0 < (imageFiles cfg inp).length := List.length_pos.mpr hne
  refine ⟨?_, ?_, ?_, ?_⟩
  · rw [run_main_eq cfg inp hdir hne]
    have hloop : runLoopResult cfg inp =
        (foldJobs cfg.overwrite inp.procR (imageFiles cfg inp).length
          (imageFiles cfg inp) 0 (initSt inp), 0 + (imageFiles cfg inp).length) := by
      rw [runLoopResult, jobLoop_all_true _ _ _ _ hobs]
    rw [hloop, if_pos (by rw [hobs])]
    obtain ⟨T, hT, hTprog, -⟩ := foldJobs_events cfg.overwrite inp.procR
      (imageFiles cfg inp).length (imageFiles cfg inp) 0 (initSt inp)
    simp only [emit, hT, List.filterMap_append, hTprog, initSt_events,
      List.filterMap_nil, List.nil_append, Ev.progVal, List.filterMap_cons,
      List.append_nil, Nat.zero_add]
  · intro j k hjk
    exact progressValue_mono hlen hjk
  · exact progressValue_last hlen
  · intro h53 j hj
    exact progressValue_lt_100 h53 hj

/-- C8 witness: three jobs, no cancellation: the emitted progress list
is exactly the per-index binary64 values, which evaluate to
33, 66, 100. -/
theorem run_progress_spec_witness :
    ((⟨true, ["a.png", "b.png", "c.png"], fun _ => none,
        fun _ => .ok (true, 1), fun _ => true⟩ : RunInput).dirExists = true ∧
      imageFiles ⟨"in", true, false, false⟩
        ⟨true, ["a.png", "b.png", "c.png"], fun _ => none,
          fun _ => .ok (true, 1), fun _ => true⟩ ≠ [] ∧
      (List.range 3).map (fun j => progressValue j 3) = [33, 66, 100]) ∧
    (ImageProcessor.run ⟨"in", true, false, false⟩
        ⟨true, ["a.png", "b.png", "c.png"], fun _ => none,
          fun _ => .ok (true, 1), fun _ => true⟩).events.filterMap Ev.progVal =
      (List.range (imageFiles ⟨"in", true, false, false⟩
        ⟨true, ["a.png", "b.png", "c.png"], fun _ => none,
          fun _ => .ok (true, 1), fun _ => true⟩).length).map
        (fun j => progressValue j (imageFiles ⟨"in", true, false, false⟩
          ⟨true, ["a.png", "b.png", "c.png"], fun _ => none,
            fun _ => .ok (true, 1), fun _ => true⟩).length) :=
  ⟨⟨rfl, by decide, by decide⟩,
    (run_progress_spec ⟨"in", true, false, false⟩
      ⟨true, ["a.png", "b.png", "c.png"], fun _ => none,
        fun _ => .ok (true, 1), fun _ => true⟩ rfl (by decide) (fun _ => rfl)).1⟩

/-- C7: if the cancellation flag is observed clear (and, once clear,
stays clear) at the `k`-th of the per-job checks, the run is exactly the
fold over the first `k` jobs: no job beyond them is started (every
`processing_file` event names one of them), no `finished_success`
counters event is ever emitted, cancellation is not reported as an
`error_occurred` failure, and the partial counters stand exactly as
accumulated over those `k` jobs. -/
theorem run_cancellation_spec (cfg : Config) (inp : RunInput) (k : ℕ)
    (hdir : inp.dirExists = true) (hne : imageFiles cfg inp ≠ [])
    (hmono : ∀ j, inp.obs j = false → inp.obs (j + 1) = false)
    (hk : inp.obs k = false)
    (hbefore : ∀ j, j < k → inp.obs j = true)
    (hkle : k ≤ (imageFiles cfg inp).length) :
    ImageProcessor.run cfg inp =
      foldJobs cfg.overwrite inp.procR (imageFiles cfg inp).length
        ((imageFiles cfg inp).take k) 0 (initSt inp) ∧
    (∀ a b c : ℕ, Ev.finished a b c ∉ (ImageProcessor.run cfg inp).events) ∧
    (∀ s : String, Ev.errorOccurred s ∉ (ImageProcessor.run cfg inp).events) ∧
    (∀ f : String, Ev.processingFile f ∈ (ImageProcessor.run cfg inp).events →
      f ∈ (imageFiles cfg inp).take k) := by
  obtain ⟨r, hr, hrf⟩ := jobLoop_cancel cfg.overwrite inp.procR inp.obs
    (imageFiles cfg inp).length hmono (imageFiles cfg inp) 0 k (initSt inp) hkle
    (by simpa using hk) (fun j hj => by simpa using hbefore j hj)
  have hrun : ImageProcessor.run cfg inp =
      foldJobs cfg.overwrite inp.procR (imageFiles cfg inp).length
        ((imageFiles cfg inp).take k) 0 (initSt inp) := by
    rw [run_main_eq cfg inp hdir hne, runLoopResult, hr, if_neg (by simp [hrf])]
  obtain ⟨T, hT, -, hTmem⟩ := foldJobs_events cfg.overwrite inp.procR
    (imageFiles cfg inp).length ((imageFiles cfg inp).take k) 0 (initSt inp)
  have hev : (ImageProcessor.run cfg inp).events = T := by
    rw [hrun, hT, initSt_events, List.nil_append]
  refine ⟨hrun, ?_, ?_, ?_⟩
  · intro a b c hmem
    rw [hev] at hmem
    exact (hTmem _ hmem).1 a b c rfl
  · intro s hmem
    rw [hev] at hmem
    exact (hTmem _ hmem).2.1 s rfl
  · intro f hmem
    rw [hev] at hmem
    exact (hTmem _ hmem).2.2.1 f rfl

/-- C7 witness: three jobs, flag observed clear at the second check:
only the first job is handled and no terminal event is emitted. -/
theorem run_cancellation_spec_witness :
    ((⟨true, ["a.png", "b.png", "c.png"], fun _ => none, fun _ => .ok (true, 1),
        fun j => decide (j < 1)⟩ : RunInput).dirExists = true ∧
      ((⟨true, ["a.png", "b.png", "c.png"], fun _ => none, fun _ => .ok (true, 1),
        fun j => decide (j < 1)⟩ : RunInput).obs 1 = false)) ∧
    ImageProcessor.run ⟨"in", true, false, false⟩
        ⟨true, ["a.png", "b.png", "c.png"], fun _ => none, fun _ => .ok (true, 1),
          fun j => decide (j < 1)⟩ =
      foldJobs true (fun _ => .ok (true, 1)) 3 ["a.png"] 0
        (initSt ⟨true, ["a.png", "b.png", "c.png"], fun _ => none,
          fun _ => .ok (true, 1), fun j => decide (j < 1)⟩) ∧
    (∀ a b c : ℕ, Ev.finished a b c ∉
      (ImageProcessor.run ⟨"in", true, false, false⟩
        ⟨true, ["a.png", "b.png", "c.png"], fun _ => none, fun _ => .ok (true, 1),
          fun j => decide (j < 1)⟩).events) :=
  ⟨⟨rfl, rfl⟩,
    (run_cancellation_spec ⟨"in", true, false, false⟩
      ⟨true, ["a.png", "b.png", "c.png"], fun _ => none, fun _ => .ok (true, 1),
        fun j => decide (j < 1)⟩ 1 rfl (by decide)
      (fun j hj => by simp_all)
      rfl (fun j hj => by interval_cases j <;> rfl) (by decide)).1,
    (run_cancellation_spec ⟨"in", true, false, false⟩
      ⟨true, ["a.png", "b.png", "c.png"], fun _ => none, fun _ => .ok (true, 1),
        fun j => decide (j < 1)⟩ 1 rfl (by decide)
      (fun j hj => by simp_all)
      rfl (fun j hj => by interval_cases j <;> rfl) (by decide)).2.1⟩

/-- C5: a batch whose job list holds exactly one raising job among jobs
that all process successfully (overwrite on, so no job is skipped; no
cancellation) absorbs the failure: `failed` ends at exactly 1, the error
log event carrying the offending filename and the underlying error is
emitted, every job after the failing one is still processed (its success
log is emitted), and the run completes with
`finished_success(N, 0, 1)` where `N` counts the successful jobs. -/
theorem run_isolates_single_failure (cfg : Config) (inp : RunInput)
    (L1 L2 : List String) (bad e : String)
    (hdir : inp.dirExists = true) (how : cfg.overwrite = true)
    (hobs : ∀ j, inp.obs j = true)
    (hL : imageFiles cfg inp = L1 ++ bad :: L2)
    (hbad : inp.procR bad = .error e)
    (hgood : ∀ f, f ∈ L1 ∨ f ∈ L2 → ∃ n, inp.procR f = .ok (true, n)) :
    (ImageProcessor.run cfg inp).processed = L1.length + L2.length ∧
    (ImageProcessor.run cfg inp).skipped = 0 ∧
    (ImageProcessor.run cfg inp).failed = 1 ∧
    Ev.log (.err bad e) ∈ (ImageProcessor.run cfg inp).events ∧
    (∀ f, f ∈ L2 → Ev.log (.ok f) ∈ (ImageProcessor.run cfg inp).events) ∧
    Ev.finished (L1.length + L2.length) 0 1 ∈ (ImageProcessor.run cfg inp).events := by
  have hne : imageFiles cfg inp ≠ [] := by
    rw [hL]
    simp
  have hco : (L1 ++ bad :: L2).countP (jobOk inp.procR) = L1.length + L2.length := by
    rw [List.countP_append, List.countP_cons]
    have h1 : L1.countP (jobOk inp.procR) = L1.length := by
      rw [List.countP_eq_length]
      intro f hf
      obtain ⟨n, hn⟩ := hgood f (Or.inl hf)
      simp [jobOk, hn]
    have h2 : L2.countP (jobOk inp.procR) = L2.length := by
      rw [List.countP_eq_length]
      intro f hf
      obtain ⟨n, hn⟩ := hgood f (Or.inr hf)
      simp [jobOk, hn]
    have hb : jobOk inp.procR bad = false := by simp [jobOk, hbad]
    rw [h1, h2, hb]
    simp
  have hcf : (L1 ++ bad :: L2).countP (fun f => ! jobOk inp.procR f) = 1 := by
    rw [List.countP_append, List.countP_cons]
    have h1 : L1.countP (fun f => ! jobOk inp.procR f) = 0 := by
      rw [List.countP_eq_zero]
      intro f hf
      obtain ⟨n, hn⟩ := hgood f (Or.inl hf)
      simp [jobOk, hn]
    have h2 : L2.countP (fun f => ! jobOk inp.procR f) = 0 := by
      rw [List.countP_eq_zero]
      intro f hf
      obtain ⟨n, hn⟩ := hgood f (Or.inr hf)
      simp [jobOk, hn]
    have hb : (! jobOk inp.procR bad) = true := by simp [jobOk, hbad]
    rw [h1, h2, hb]
    simp
  have hloop : runLoopResult cfg inp =
      (foldJobs cfg.overwrite inp.procR (imageFiles cfg inp).length
        (imageFiles cfg inp) 0 (initSt inp), 0 + (imageFiles cfg inp).length) := by
    rw [runLoopResult, jobLoop_all_true _ _ _ _ hobs]
  have hfold := foldJobs_counts inp.procR (imageFiles cfg inp).length
    (imageFiles cfg inp) 0 (initSt inp)
  rw [how] at hloop
  have hco2 : (imageFiles cfg inp).countP (jobOk inp.procR) = L1.length + L2.length := by
    rw [hL]
    exact hco
  have hcf2 : (imageFiles cfg inp).countP (fun f => ! jobOk inp.procR f) = 1 := by
    rw [hL]
    exact hcf
  have hp : (foldJobs true inp.procR (imageFiles cfg inp).length
      (imageFiles cfg inp) 0 (initSt inp)).processed = L1.length + L2.length := by
    rw [hfold.1, hco2]
    simp [initSt]
  have hs : (foldJobs true inp.procR (imageFiles cfg inp).length
      (imageFiles cfg inp) 0 (initSt inp)).skipped = 0 := by
    rw [hfold.2.1]
    simp [initSt]
  have hf : (foldJobs true inp.procR (imageFiles cfg inp).length
      (imageFiles cfg inp) 0 (initSt inp)).failed = 1 := by
    rw [hfold.2.2, hcf2]
    simp [initSt]
  have hrun : ImageProcessor.run cfg inp =
      emit (foldJobs true inp.procR (imageFiles cfg inp).length
          (imageFiles cfg inp) 0 (initSt inp))
        (.finished (L1.length + L2.length) 0 1) := by
    rw [run_main_eq cfg inp hdir hne, hloop, if_pos (by rw [hobs])]
    simp only [hp, hs, hf, how]
  have hmembad : bad ∈ imageFiles cfg inp := by
    rw [hL]
    exact List.mem_append_right L1 (List.mem_cons_self bad L2)
  have herrmem : Ev.log (.err bad e) ∈
      (foldJobs true inp.procR (imageFiles cfg inp).length
        (imageFiles cfg inp) 0 (initSt inp)).events :=
    (foldJobs_log_mem inp.procR (imageFiles cfg inp).length (imageFiles cfg inp)
      0 (initSt inp) bad hmembad).1 e hbad
  refine ⟨?_, ?_, ?_, ?_, ?_, ?_⟩
  · rw [hrun]
    simpa [emit] using hp
  · rw [hrun]
    simpa [emit] using hs
  · rw [hrun]
    simpa [emit] using hf
  · rw [hrun]
    simp only [emit]
    exact List.mem_append_left _ herrmem
  · intro f hfL2
    have hmemf : f ∈ imageFiles cfg inp := by
      rw [hL]
      exact List.mem_append_right L1 (List.mem_cons_of_mem bad hfL2)
    obtain ⟨n, hn⟩ := hgood f (Or.inr hfL2)
    have hokmem := (foldJobs_log_mem inp.procR (imageFiles cfg inp).length
      (imageFiles cfg inp) 0 (initSt inp) f hmemf).2 n hn
    rw [hrun]
    simp only [emit]
    exact List.mem_append_left _ hokmem
  · rw [hrun]
    simp [emit]

/-- C5 witness: three jobs where the middle one raises: the run reports
2 processed, 0 skipped, 1 failed, logs the error with filename and
cause, still processes the job after the failure, and finishes. -/
theorem run_isolates_single_failure_witness :
    ((⟨true, ["a.png", "bad.png", "c.png"], fun _ => none,
        fun f => if f = "bad.png" then .error "decode error" else .ok (true, 1),
        fun _ => true⟩ : RunInput).dirExists = true ∧
      imageFiles ⟨"in", true, false, false⟩
        ⟨true, ["a.png", "bad.png", "c.png"], fun _ => none,
          fun f => if f = "bad.png" then .error "decode error" else .ok (true, 1),
          fun _ => true⟩ = ["a.png"] ++ "bad.png" :: ["c.png"]) ∧
    (ImageProcessor.run ⟨"in", true, false, false⟩
        ⟨true, ["a.png", "bad.png", "c.png"], fun _ => none,
          fun f => if f = "bad.png" then .error "decode error" else .ok (true, 1),
          fun _ => true⟩).processed = ["a.png"].length + ["c.png"].length ∧
    (ImageProcessor.run ⟨"in", true, false, false⟩
        ⟨true, ["a.png", "bad.png", "c.png"], fun _ => none,
          fun f => if f = "bad.png" then .error "decode error" else .ok (true, 1),
          fun _ => true⟩).failed = 1 ∧
    Ev.log (.err "bad.png" "decode error") ∈
      (ImageProcessor.run ⟨"in", true, false, false⟩
        ⟨true, ["a.png", "bad.png", "c.png"], fun _ => none,
          fun f => if f = "bad.png" then .error "decode error" else .ok (true, 1),
          fun _ => true⟩).events :=
  ⟨⟨rfl, by decide⟩,
    (run_isolates_single_failure ⟨"in", true, false, false⟩
      ⟨true, ["a.png", "bad.png", "c.png"], fun _ => none,
        fun f => if f = "bad.png" then .error "decode error" else .ok (true, 1),
        fun _ => true⟩ ["a.png"] ["c.png"] "bad.png" "decode error" rfl rfl
      (fun _ => rfl) (by decide) rfl
      (fun f hf => ⟨1, by rcases hf with hf | hf <;> simp_all <;> subst hf <;> rfl⟩)).1,
    (run_isolates_single_failure ⟨"in", true, false, false⟩
      ⟨true, ["a.png", "bad.png", "c.png"], fun _ => none,
        fun f => if f = "bad.png" then .error "decode error" else .ok (true, 1),
        fun _ => true⟩ ["a.png"] ["c.png"] "bad.png" "decode error" rfl rfl
      (fun _ => rfl) (by decide) rfl
      (fun f hf => ⟨1, by rcases hf with hf | hf <;> simp_all <;> subst hf <;> rfl⟩)).2.2.1,
    (run_isolates_single_failure ⟨"in", true, false, false⟩
      ⟨true, ["a.png", "bad.png", "c.png"], fun _ => none,
        fun f => if f = "bad.png" then .error "decode error" else .ok (true, 1),
        fun _ => true⟩ ["a.png"] ["c.png"] "bad.png" "decode error" rfl rfl
      (fun _ => rfl) (by decide) rfl
      (fun f hf => ⟨1, by rcases hf with hf | hf <;> simp_all <;> subst hf <;> rfl⟩)).2.2.2.1⟩

/-- A run whose process oracle has the shape of the code's actual
`process_image` never logs `Failed:`. -/
theorem run_no_failed_log (cfg : Config) (inp : RunInput)
    (dec : String → Except String ℕ)
    (hp : inp.procR = processImageRet dec) (g : String) :
    Ev.log (.failed g) ∉ (ImageProcessor.run cfg inp).events := by
  intro hmem
  by_cases hd : inp.dirExists = false
  · rw [ImageProcessor.run, if_pos hd] at hmem
    simp [emit, initSt] at hmem
  · by_cases hfe : imageFiles cfg inp = []
    · rw [ImageProcessor.run, if_neg hd] at hmem
      simp only [] at hmem
      rw [if_pos hfe] at hmem
      simp [emit, initSt] at hmem
    · rw [run_main_eq cfg inp (by simpa using hd) hfe] at hmem
      have hbase : Ev.log (.failed g) ∈ (runLoopResult cfg inp).1.events := by
        by_cases ho : inp.obs (runLoopResult cfg inp).2 = true
        · rw [if_pos ho] at hmem
          rcases List.mem_append.mp hmem with h | h
          · exact h
          · simp at h
        · rw [if_neg ho] at hmem
          exact hmem
      rw [runLoopResult, hp] at hbase
      have hinit := jobLoop_ret_no_failed cfg.overwrite dec inp.obs
        (imageFiles cfg inp).length (imageFiles cfg inp) 0 (initSt inp) g hbase
      simp [initSt] at hinit

/-- C10 (implicit): every handled job moves exactly one of the three
counters up by exactly 1 — so after any prefix of the run,
processed + skipped + failed equals the number of jobs handled — and
the `Failed:` branch that `run` keeps for a falsy `process_image`
return is unreachable, because `process_image` returns `True` on every
non-raising path. -/
theorem counters_partition_spec :
    (∀ (ow : Bool) (procR : String → Except String (Bool × ℕ)) (total i : ℕ)
        (f : String) (st : St),
      ((handleJob ow procR total i f st).processed = st.processed + 1 ∧
        (handleJob ow procR total i f st).skipped = st.skipped ∧
        (handleJob ow procR total i f st).failed = st.failed) ∨
      ((handleJob ow procR total i f st).processed = st.processed ∧
        (handleJob ow procR total i f st).skipped = st.skipped + 1 ∧
        (handleJob ow procR total i f st).failed = st.failed) ∨
      ((handleJob ow procR total i f st).processed = st.processed ∧
        (handleJob ow procR total i f st).skipped = st.skipped ∧
        (handleJob ow procR total i f st).failed = st.failed + 1)) ∧
    (∀ (ow : Bool) (procR : String → Except String (Bool × ℕ)) (total : ℕ)
        (L : List String) (i : ℕ) (st : St),
      (foldJobs ow procR total L i st).processed
          + (foldJobs ow procR total L i st).skipped
          + (foldJobs ow procR total L i st).failed
        = st.processed + st.skipped + st.failed + L.length) ∧
    (∀ (cfg : Config) (inp : RunInput) (dec : String → Except String ℕ) (g : String),
      Ev.log (.failed g) ∉
        (ImageProcessor.run cfg { inp with procR := processImageRet dec }).events) :=
  ⟨handleJob_one_counter,
    fun ow procR total L i st => foldJobs_counter_total ow procR total L i st,
    fun cfg inp dec g =>
      run_no_failed_log cfg { inp with procR := processImageRet dec } dec rfl g⟩

/-- C10 witness: the counter-partition identity evaluated on a concrete
one-job fold. -/
theorem counters_partition_spec_witness :
    (foldJobs true (fun _ => Except.ok (true, 1)) 1 ["a.png"] 0
        (initSt ⟨true, ["a.png"], fun _ => none, fun _ => Except.ok (true, 1),
          fun _ => true⟩)).processed
      + (foldJobs true (fun _ => Except.ok (true, 1)) 1 ["a.png"] 0
        (initSt ⟨true, ["a.png"], fun _ => none, fun _ => Except.ok (true, 1),
          fun _ => true⟩)).skipped
      + (foldJobs true (fun _ => Except.ok (true, 1)) 1 ["a.png"] 0
        (initSt ⟨true, ["a.png"], fun _ => none, fun _ => Except.ok (true, 1),
          fun _ => true⟩)).failed
      = 0 + 0 + 0 + 1 :=
  counters_partition_spec.2.1 true (fun _ => Except.ok (true, 1)) 1 ["a.png"] 0
    (initSt ⟨true, ["a.png"], fun _ => none, fun _ => Except.ok (true, 1),
      fun _ => true⟩)
